import Mathlib

/-!
# compiler.c: a tree-walking evaluator, a compiler to stack code, a stack machine

A shallow embedding of `walk`, `compile` and `interpret` of `src/compiler.c`.

Conventions of the embedding.

* A C `int` value is an `Int`; the `+` of two `int`s is `int_add`, which wraps
  to 32 bits in two's complement. Counters that only count instructions or
  stack cells (`stack_size`, `instructs->count`, slots, targets) are plain
  `Int`/`Nat`: they never come near the 32-bit limit for a program that fits
  in memory.
* The linked lists `environment` and `symbols` are Lean lists, the null
  pointer being the empty list.
* The growable arrays `instructions` and `stack` are Lean lists indexed from
  the base; `push_instruction` and `stack_push` append at the end.
* A run that the C standard leaves undefined (dereferencing the null pointer
  that ends a list, reading or writing outside the live part of an array)
  ends in `fault.undefined_behaviour`; a failed `assert` ends in
  `fault.assertion_failed`. The machine loop takes a step budget, and
  `fault.out_of_fuel` says that the budget ran out before the loop ended.
* The `loud` flag of `interpret` only prints; the embedding is the quiet run.
-/

namespace Compiler

/-! ## Data model -/

/-- The tagged union `expression`. -/
inductive expression where
  | literal (value : Int)
  | addition (left right : expression)
  | definition (word : String) (value context : expression)
  | word (word : String)
  | condition (test yes no : expression)
  deriving Repr, DecidableEq

/-- The tagged union `instruction`. -/
inductive instruction where
  | load_literal (value : Int)
  | add
  | copy (slot : Int)
  | drop (slot : Int)
  | branch (target : Int)
  | jump (target : Int)
  deriving Repr, DecidableEq

/-- The ways a run of the C program can fail to produce a value. -/
inductive fault where
  | undefined_behaviour
  | assertion_failed
  | out_of_fuel
  deriving Repr, DecidableEq

/-- The list `struct environment`: frames `(word, value)`, newest first. -/
abbrev environment := List (String × Int)

/-- The list `struct symbols`: frames `(word, position)`, newest first. -/
abbrev symbols := List (String × Int)

/-- The array of `struct instructions`, `count` being its length. -/
abbrev instructions := List instruction

/-- The live part of `struct stack`, base first, `size` being its length. -/
abbrev stack := List Int

/-! ## Machine integers -/

/-- Reduction of an integer to the range of a 32-bit two's complement `int`. -/
def int_wrap (x : Int) : Int := (x + 2147483648) % 4294967296 - 2147483648

/-- The `+` of two `int` values. -/
def int_add (x y : Int) : Int := int_wrap (x + y)

/-! ## The tree walking interpreter -/

/-- The scan `while (strcmp(en->word, word) != 0) en = en->rest;` followed by
the read of the frame found. Running off the end dereferences the null
pointer, which is `none` here. The same loop serves `walk` (values) and
`compile` (positions). -/
def scan : List (String × Int) → String → Option Int
  | [], _ => none
  | (w, x) :: rest, word => if w = word then some x else scan rest word

/-- The function `walk`. -/
def walk : expression → environment → Except fault Int
  | .literal v, _ => .ok v
  | .addition left right, en =>
    match walk left en with
    | .error f => .error f
    | .ok x =>
      match walk right en with
      | .error f => .error f
      | .ok y => .ok (int_add x y)
  | .word w, en =>
    match scan en w with
    | none => .error fault.undefined_behaviour
    | some v => .ok v
  | .definition w value context, en =>
    match walk value en with
    | .error f => .error f
    | .ok v => walk context ((w, v) :: en)
  | .condition test yes no, en =>
    match walk test en with
    | .error f => .error f
    | .ok t => if t ≠ 0 then walk yes en else walk no en

/-! ## The compiler -/

/-- The function `push_instruction`. -/
def push_instruction (instructs : instructions) (i : instruction) : instructions :=
  instructs ++ [i]

/-- The backpatch of a branch: `assert(branch->is == is_branch);
branch->branch = target;` on the instruction at `position`. -/
def patch_branch (instructs : instructions) (position : Nat) (target : Int) :
    Except fault instructions :=
  match instructs.get? position with
  | some (.branch _) => .ok (instructs.set position (.branch target))
  | some _ => .error fault.assertion_failed
  | none => .error fault.undefined_behaviour

/-- The backpatch of a jump: `assert(jump->is == is_jump);
jump->jump = target;` on the instruction at `position`. -/
def patch_jump (instructs : instructions) (position : Nat) (target : Int) :
    Except fault instructions :=
  match instructs.get? position with
  | some (.jump _) => .ok (instructs.set position (.jump target))
  | some _ => .error fault.assertion_failed
  | none => .error fault.undefined_behaviour

/-- The function `compile`: the instruction array is passed in and returned
together with the returned `stack_size`. -/
def compile : expression → instructions → symbols → Int →
    Except fault (instructions × Int)
  | .literal v, instructs, _, stack_size =>
    .ok (push_instruction instructs (.load_literal v), stack_size + 1)
  | .addition left right, instructs, s, stack_size =>
    match compile left instructs s stack_size with
    | .error f => .error f
    | .ok (instructs, stack_size) =>
      match compile right instructs s stack_size with
      | .error f => .error f
      | .ok (instructs, stack_size) =>
        .ok (push_instruction instructs .add, stack_size - 1)
  | .definition w value context, instructs, s, stack_size =>
    match compile value instructs s stack_size with
    | .error f => .error f
    | .ok (instructs, stack_size) =>
      match compile context instructs ((w, stack_size - 1) :: s) stack_size with
      | .error f => .error f
      | .ok (instructs, stack_size) =>
        .ok (push_instruction instructs (.drop (stack_size - 2)), stack_size - 1)
  | .word w, instructs, s, stack_size =>
    match scan s w with
    | none => .error fault.undefined_behaviour
    | some position => .ok (push_instruction instructs (.copy position), stack_size + 1)
  | .condition test yes no, instructs, s, stack_size =>
    match compile test instructs s stack_size with
    | .error f => .error f
    | .ok (instructs, stack_size) =>
      let branch_instruction_position := instructs.length
      let instructs := push_instruction instructs (.branch 0)
      let stack_size := stack_size - 1
      match compile no instructs s stack_size with
      | .error f => .error f
      | .ok (instructs, stack_size_no) =>
        let jump_instruction_position := instructs.length
        let instructs := push_instruction instructs (.jump 0)
        match patch_branch instructs branch_instruction_position instructs.length with
        | .error f => .error f
        | .ok instructs =>
          match compile yes instructs s stack_size with
          | .error f => .error f
          | .ok (instructs, stack_size_yes) =>
            if stack_size_yes = stack_size_no then
              match patch_jump instructs jump_instruction_position instructs.length with
              | .error f => .error f
              | .ok instructs => .ok (instructs, stack_size)
            else .error fault.assertion_failed

/-! ## The stack machine -/

/-- The function `stack_push`. -/
def stack_push (s : stack) (i : Int) : stack := s ++ [i]

/-- The function `stack_pop`: the popped value and the remaining stack. -/
def stack_pop (s : stack) : Except fault (Int × stack) :=
  match s.getLast? with
  | none => .error fault.assertion_failed
  | some v => .ok (v, s.dropLast)

/-- The `is_drop` case of `interpret`: cells `slot + 1 ..` move down by one
and `size` decreases. A negative slot writes below the array. On an empty
stack `size` becomes negative, after which every way to go on (a push, a pop,
the final read of the top) is outside the array; the fault is raised at
once. A slot at or above the top moves nothing and only decreases `size`. -/
def stack_drop (s : stack) (slot : Int) : Except fault stack :=
  if s = [] then .error fault.undefined_behaviour
  else if slot < 0 then .error fault.undefined_behaviour
  else if slot.toNat < s.length then .ok (s.eraseIdx slot.toNat)
  else .ok s.dropLast

/-- The redirection `i = target - 1` followed by the `i++` of the loop: the
next index is `target`. A negative one makes the next fetch read below the
array. -/
def goto (target : Int) : Except fault Nat :=
  if target < 0 then .error fault.undefined_behaviour else .ok target.toNat

/-- One turn of the `for` loop of `interpret` on instruction `ins` fetched at
index `i`: the index of the next turn and the stack. -/
def step (ins : instruction) (i : Nat) (s : stack) : Except fault (Nat × stack) :=
  match ins with
  | .load_literal v => .ok (i + 1, stack_push s v)
  | .add =>
    match stack_pop s with
    | .error f => .error f
    | .ok (x, s) =>
      match stack_pop s with
      | .error f => .error f
      | .ok (y, s) => .ok (i + 1, stack_push s (int_add x y))
  | .copy slot =>
    if slot < 0 then .error fault.undefined_behaviour
    else
      match s.get? slot.toNat with
      | none => .error fault.undefined_behaviour
      | some v => .ok (i + 1, stack_push s v)
  | .drop slot =>
    match stack_drop s slot with
    | .error f => .error f
    | .ok s => .ok (i + 1, s)
  | .branch target =>
    match stack_pop s with
    | .error f => .error f
    | .ok (test, s) =>
      if test ≠ 0 then
        match goto target with
        | .error f => .error f
        | .ok i => .ok (i, s)
      else .ok (i + 1, s)
  | .jump target =>
    match goto target with
    | .error f => .error f
    | .ok i => .ok (i, s)

/-- The `for` loop of `interpret`, started at index `i` with stack `s`; at
most `fuel` instructions are executed. The result is the stack with which
the loop is left. -/
def run (instructs : instructions) : Nat → Nat → stack → Except fault stack
  | 0, i, s =>
    match instructs.get? i with
    | none => .ok s
    | some _ => .error fault.out_of_fuel
  | fuel + 1, i, s =>
    match instructs.get? i with
    | none => .ok s
    | some ins =>
      match step ins i s with
      | .error f => .error f
      | .ok (i, s) => run instructs fuel i s

/-- The function `interpret`: the loop from index 0, then
`assert(s->size != 0)` and the read of the top of the stack. -/
def interpret (instructs : instructions) (s : stack) (fuel : Nat) : Except fault Int :=
  match run instructs fuel 0 s with
  | .error f => .error f
  | .ok s =>
    match s.getLast? with
    | none => .error fault.assertion_failed
    | some result => .ok result

/-- The instrumented loop: the states `(i, s)` in which the `for` loop of
`interpret` fetches an instruction, in the order of execution, for the same
budget as `run`. -/
def trace (instructs : instructions) : Nat → Nat → stack → List (Nat × stack)
  | 0, _, _ => []
  | fuel + 1, i, s =>
    match instructs.get? i with
    | none => []
    | some ins =>
      (i, s) ::
        match step ins i s with
        | .error _ => []
        | .ok (i, s) => trace instructs fuel i s

/-- The two pipelines of `main` on one program: the compiled code of `e`
(empty sequence, null symbol table, depth 0) run from an empty stack. -/
def compile_and_interpret (e : expression) (fuel : Nat) : Except fault Int :=
  match compile e [] [] 0 with
  | .error f => .error f
  | .ok (instructs, _) => interpret instructs [] fuel

/-! ## Auxiliary definitions used to state and prove the properties -/

/-- The program on which the two pipelines of `main` disagree: a definition
whose value is a condition, compiled when the stack already holds a value. -/
def disagreeing_program : expression :=
  .addition (.literal 100)
    (.definition "y" (.condition (.literal 1) (.literal 2) (.literal 3)) (.literal 7))

/-- The instructions that `compile` appends and the depth it returns, as a
function of the index `base` at which the first appended instruction lands,
with the targets of its branches and jumps already in their final state.
It is a device of the proofs: `compile_eq_emit` shows that `compile` on a
sequence `c` returns `c` followed by `emit ... c.length`. -/
def emit : expression → symbols → Int → Nat → Except fault (instructions × Int)
  | .literal v, _, d, _ => .ok ([.load_literal v], d + 1)
  | .addition left right, s, d, base =>
    match emit left s d base with
    | .error f => .error f
    | .ok (cl, d1) =>
      match emit right s d1 (base + cl.length) with
      | .error f => .error f
      | .ok (cr, d2) => .ok (cl ++ (cr ++ [.add]), d2 - 1)
  | .definition w value context, s, d, base =>
    match emit value s d base with
    | .error f => .error f
    | .ok (cv, d1) =>
      match emit context ((w, d1 - 1) :: s) d1 (base + cv.length) with
      | .error f => .error f
      | .ok (cb, d2) => .ok (cv ++ (cb ++ [.drop (d2 - 2)]), d2 - 1)
  | .word w, s, d, _ =>
    match scan s w with
    | none => .error fault.undefined_behaviour
    | some position => .ok ([.copy position], d + 1)
  | .condition test yes no, s, d, base =>
    match emit test s d base with
    | .error f => .error f
    | .ok (ct, d1) =>
      match emit no s (d1 - 1) (base + ct.length + 1) with
      | .error f => .error f
      | .ok (cn, dn) =>
        match emit yes s (d1 - 1) (base + ct.length + 1 + cn.length + 1) with
        | .error f => .error f
        | .ok (cy, dy) =>
          if dy = dn then
            .ok (ct ++ (.branch ((base + ct.length + 1 + cn.length + 1 : Nat) : Int) ::
              (cn ++ (.jump ((base + ct.length + 1 + cn.length + 1 + cy.length : Nat) : Int) ::
                cy))), d1 - 1)
          else .error fault.assertion_failed

/-- A failure that the program itself detects and reports: the only such
mechanism in compiler.c is `assert`. Undefined behaviour is not detected by
the program, and `out_of_fuel` belongs to the budget of the embedding. -/
def fault.reported : fault → Bool
  | .assertion_failed => true
  | .undefined_behaviour => false
  | .out_of_fuel => false

/-- The outcome is a failure reported by the program. -/
def reports_error {α : Type} : Except fault α → Bool
  | .error f => f.reported
  | .ok _ => false

/-- The index to which an instruction can redirect the loop, if any. -/
def target_of : instruction → Option Int
  | .branch target => some target
  | .jump target => some target
  | _ => none

/-- Every branch or jump of the segment `c`, placed at index `base`, goes
forward and not beyond index `limit`. -/
def forward_within (c : instructions) (base limit : Nat) : Prop :=
  ∀ k ins t, c.get? k = some ins → target_of ins = some t →
    ((base + k : Nat) : Int) < t ∧ t ≤ (limit : Int)

/-- Every branch or jump of `c` at an index in `[lo, hi)` has its target in
`[lo, hi]`. -/
def confined (c : instructions) (lo hi : Nat) : Prop :=
  ∀ i ins t, lo ≤ i → i < hi → c.get? i = some ins → target_of ins = some t →
    (lo : Int) ≤ t ∧ t ≤ (hi : Int)

/-- The loop `for (int i = ins.drop; i < s->size - 1; i++) s->values[i] =
s->values[i + 1];` of the `is_drop` case on the cells `values` of the stack,
from loop variable `i`, for at most `fuel` turns. The test `i < size - 1` is
`i + 1 < size`, and both cells are inside the array when it holds. -/
def drop_shift : Nat → Nat → List Int → List Int
  | 0, _, values => values
  | fuel + 1, i, values =>
    if i + 1 < values.length then
      drop_shift fuel (i + 1) (values.set i (values.getD (i + 1) 0))
    else values

/-- The `is_drop` case as the source has it, for a slot that is not
negative: the loop, which ends within `size` turns, and then `s->size--`. -/
def drop_cells (s : stack) (slot : Nat) : stack :=
  (drop_shift s.length slot s).dropLast

/-- The expression contains no `is_condition` node. -/
def condition_free : expression → Bool
  | .literal _ => true
  | .addition left right => condition_free left && condition_free right
  | .definition _ value context => condition_free value && condition_free context
  | .word _ => true
  | .condition _ _ _ => false

/-- Every `is_word` node of the expression refers to a name in scope, the
names in scope on entry being `names`: the expression has no unbound
reference. -/
def bound_in : expression → List String → Bool
  | .literal _, _ => true
  | .addition left right, names => bound_in left names && bound_in right names
  | .definition w value context, names => bound_in value names && bound_in context (w :: names)
  | .word w, names => decide (w ∈ names)
  | .condition test yes no, names =>
    bound_in test names && bound_in yes names && bound_in no names

/-- The symbol table and the stack agree with the environment: for each name
bound in `env`, the innermost frame of that name in `s` holds a slot inside
the stack, and the cell at that slot holds the value of the innermost frame of
the name in `env`. -/
def agrees (env : environment) (s : symbols) (st : stack) : Prop :=
  ∀ n v, scan env n = some v →
    ∃ p, scan s n = some p ∧ 0 ≤ p ∧ p < (st.length : Int) ∧ st.get? p.toNat = some v

/-! ## Basic facts about the machine -/

theorem int_add_comm (x y : Int) : int_add x y = int_add y x := by
  unfold int_add
  rw [Int.add_comm]

/-- A 32-bit sum that does not overflow is the mathematical sum. -/
theorem int_add_exact (x y : Int) (hlo : -2147483648 ≤ x + y) (hhi : x + y < 2147483648) :
    int_add x y = x + y := by
  unfold int_add int_wrap
  omega

theorem run_none (c : instructions) (fuel i : Nat) (s : stack)
    (hg : c.get? i = none) : run c fuel i s = .ok s := by
  cases fuel <;> simp only [run, hg]

theorem run_step (c : instructions) (fuel i : Nat) (s : stack) (ins : instruction)
    (i' : Nat) (s' : stack) (hg : c.get? i = some ins) (hs : step ins i s = .ok (i', s')) :
    run c (fuel + 1) i s = run c fuel i' s' := by
  simp only [run, hg, hs]

theorem run_fault (c : instructions) (fuel i : Nat) (s : stack) (ins : instruction)
    (f : fault) (hg : c.get? i = some ins) (hs : step ins i s = .error f) :
    run c (fuel + 1) i s = .error f := by
  simp only [run, hg, hs]

theorem run_zero_some (c : instructions) (i : Nat) (s : stack) (ins : instruction)
    (hg : c.get? i = some ins) : run c 0 i s = .error fault.out_of_fuel := by
  simp only [run, hg]

/-- A loop that ended within a budget ends the same way within a larger one. -/
theorem run_mono (c : instructions) (fuel : Nat) :
    ∀ (i : Nat) (s s' : stack), run c fuel i s = .ok s' →
      ∀ k, run c (fuel + k) i s = .ok s' := by
  induction fuel with
  | zero =>
    intro i s s' h k
    cases hg : c.get? i with
    | none => rw [run_none c _ i s hg] at h ⊢; exact h
    | some ins => rw [run_zero_some c i s ins hg] at h; cases h
  | succ fuel ih =>
    intro i s s' h k
    rw [Nat.add_right_comm]
    cases hg : c.get? i with
    | none => rw [run_none c _ i s hg] at h ⊢; exact h
    | some ins =>
      cases hs : step ins i s with
      | error f => rw [run_fault c fuel i s ins f hg hs] at h; cases h
      | ok p =>
        obtain ⟨i', s1⟩ := p
        rw [run_step c _ i s ins i' s1 hg hs] at h ⊢
        exact ih i' s1 s' h k

/-- A result of `interpret` within a budget is its result within a larger one. -/
theorem interpret_mono (c : instructions) (s : stack) (fuel : Nat) (v : Int)
    (h : interpret c s fuel = .ok v) (k : Nat) : interpret c s (fuel + k) = .ok v := by
  unfold interpret at h ⊢
  cases hr : run c fuel 0 s with
  | error f => simp [hr] at h
  | ok s' =>
    rw [run_mono c fuel 0 s s' hr k]
    simpa [hr] using h

theorem scan_eq_none (l : List (String × Int)) (n : String)
    (h : ∀ p ∈ l, p.1 ≠ n) : scan l n = none := by
  induction l with
  | nil => rfl
  | cons p l ih =>
    obtain ⟨w, x⟩ := p
    have hw : w ≠ n := h (w, x) (List.mem_cons_self _ _)
    simp only [scan, hw, if_false]
    exact ih (fun q hq => h q (List.mem_cons_of_mem _ hq))

/-! ## The compiler appends `emit` -/

theorem get?_mid {α : Type} (pre post : List α) (a : α) :
    (pre ++ a :: post).get? pre.length = some a := by
  induction pre with
  | nil => rfl
  | cons x pre ih => simpa using ih

theorem set_mid {α : Type} (pre post : List α) (a b : α) :
    (pre ++ a :: post).set pre.length b = pre ++ b :: post := by
  induction pre with
  | nil => rfl
  | cons x pre ih => simp

theorem patch_branch_mid (pre post : instructions) (x t : Int) :
    patch_branch (pre ++ .branch x :: post) pre.length t = .ok (pre ++ .branch t :: post) := by
  unfold patch_branch
  rw [get?_mid, set_mid]

theorem patch_jump_mid (pre post : instructions) (x t : Int) :
    patch_jump (pre ++ .jump x :: post) pre.length t = .ok (pre ++ .jump t :: post) := by
  unfold patch_jump
  rw [get?_mid, set_mid]

/-- The sequence returned by `compile` is the sequence passed in followed by
`emit` at the length of that sequence, and the depths agree; `compile` fails
exactly when `emit` does, with the same fault. -/
theorem compile_eq_emit (e : expression) :
    ∀ (c : instructions) (s : symbols) (d : Int),
      compile e c s d =
        match emit e s d c.length with
        | .error f => .error f
        | .ok (seg, d') => .ok (c ++ seg, d') := by
  induction e with
  | literal v =>
    intro c s d
    simp only [compile, emit, push_instruction]
  | word w =>
    intro c s d
    simp only [compile, emit, push_instruction]
    cases scan s w <;> rfl
  | addition left right ihl ihr =>
    intro c s d
    simp only [compile, emit]
    rw [ihl]
    cases hl : emit left s d c.length with
    | error f => rfl
    | ok p =>
      obtain ⟨cl, d1⟩ := p
      simp only []
      rw [ihr, List.length_append]
      cases hr : emit right s d1 (c.length + cl.length) with
      | error f => rfl
      | ok q =>
        obtain ⟨cr, d2⟩ := q
        simp only [push_instruction, List.append_assoc]
  | definition w value context ihv ihc =>
    intro c s d
    simp only [compile, emit]
    rw [ihv]
    cases hl : emit value s d c.length with
    | error f => rfl
    | ok p =>
      obtain ⟨cl, d1⟩ := p
      simp only []
      rw [ihc, List.length_append]
      cases hr : emit context ((w, d1 - 1) :: s) d1 (c.length + cl.length) with
      | error f => rfl
      | ok q =>
        obtain ⟨cr, d2⟩ := q
        simp only [push_instruction, List.append_assoc]
  | condition test yes no iht ihy ihn =>
    intro c s d
    simp only [compile, emit]
    rw [iht]
    cases ht : emit test s d c.length with
    | error f => rfl
    | ok p =>
      obtain ⟨ct, d1⟩ := p
      simp only [push_instruction]
      rw [ihn]
      have e1 : (c ++ ct ++ [instruction.branch 0]).length = c.length + ct.length + 1 := by
        rw [List.length_append, List.length_append]
        rfl
      rw [e1]
      cases hn : emit no s (d1 - 1) (c.length + ct.length + 1) with
      | error f => rfl
      | ok q =>
        obtain ⟨cn, dn⟩ := q
        simp only []
        have e2 : c ++ ct ++ [instruction.branch 0] ++ cn ++ [instruction.jump 0] =
            (c ++ ct) ++ instruction.branch 0 :: (cn ++ [instruction.jump 0]) := by
          simp
        have e0 : ((c ++ ct) ++ instruction.branch 0 :: (cn ++ [instruction.jump 0])).length =
            c.length + ct.length + 1 + cn.length + 1 := by
          simp only [List.length_append, List.length_cons, List.length_nil]
          omega
        rw [e2, patch_branch_mid, e0]
        simp only []
        rw [ihy]
        have e3 : ((c ++ ct) ++ instruction.branch
            ((c.length + ct.length + 1 + cn.length + 1 : Nat) : Int) ::
              (cn ++ [instruction.jump 0])).length =
            c.length + ct.length + 1 + cn.length + 1 := by
          simp only [List.length_append, List.length_cons, List.length_nil]
          omega
        rw [e3]
        cases hy : emit yes s (d1 - 1) (c.length + ct.length + 1 + cn.length + 1) with
        | error f => rfl
        | ok r =>
          obtain ⟨cy, dy⟩ := r
          simp only []
          by_cases hd : dy = dn
          · simp only [hd, if_true]
            have e4 : c ++ ct ++ instruction.branch
                ((c.length + ct.length + 1 + cn.length + 1 : Nat) : Int) ::
                  (cn ++ [instruction.jump 0]) ++ cy =
                (c ++ ct ++ instruction.branch
                  ((c.length + ct.length + 1 + cn.length + 1 : Nat) : Int) :: cn) ++
                    instruction.jump 0 :: cy := by
              simp
            have e5 : (c ++ ct ++ [instruction.branch 0] ++ cn).length =
                (c ++ ct ++ instruction.branch
                  ((c.length + ct.length + 1 + cn.length + 1 : Nat) : Int) :: cn).length := by
              simp
            have e6 : ((c ++ ct ++ instruction.branch
                  ((c.length + ct.length + 1 + cn.length + 1 : Nat) : Int) :: cn) ++
                    instruction.jump 0 :: cy).length =
                c.length + ct.length + 1 + cn.length + 1 + cy.length := by
              simp only [List.length_append, List.length_cons, List.length_nil]
              omega
            rw [e4, e5, patch_jump_mid, e6]
            simp
          · simp only [hd, if_false]

theorem compile_ok (e : expression) (c c' : instructions) (s : symbols) (d d' : Int)
    (h : compile e c s d = .ok (c', d')) :
    ∃ seg, emit e s d c.length = .ok (seg, d') ∧ c' = c ++ seg := by
  rw [compile_eq_emit] at h
  cases he : emit e s d c.length with
  | error f => rw [he] at h; cases h
  | ok p =>
    obtain ⟨seg, d2⟩ := p
    rw [he] at h
    simp only [Except.ok.injEq, Prod.mk.injEq] at h
    exact ⟨seg, by rw [h.2], h.1.symm⟩

theorem compile_of_emit (e : expression) (c seg : instructions) (s : symbols) (d d' : Int)
    (h : emit e s d c.length = .ok (seg, d')) : compile e c s d = .ok (c ++ seg, d') := by
  rw [compile_eq_emit, h]

/-- Whether `emit` succeeds, the fault otherwise, the returned depth and the
number of instructions do not depend on the index at which the code lands. -/
theorem emit_base (e : expression) :
    ∀ (s : symbols) (d : Int) (b b' : Nat),
      (∃ f, emit e s d b = .error f ∧ emit e s d b' = .error f) ∨
      (∃ c c' d', emit e s d b = .ok (c, d') ∧ emit e s d b' = .ok (c', d') ∧
        c.length = c'.length) := by
  induction e with
  | literal v =>
    intro s d b b'
    exact Or.inr ⟨_, _, _, rfl, rfl, rfl⟩
  | word w =>
    intro s d b b'
    simp only [emit]
    cases scan s w with
    | none => exact Or.inl ⟨_, rfl, rfl⟩
    | some p => exact Or.inr ⟨_, _, _, rfl, rfl, rfl⟩
  | addition left right ihl ihr =>
    intro s d b b'
    rcases ihl s d b b' with ⟨f, h1, h2⟩ | ⟨cl, cl', d1, h1, h2, hl⟩
    · exact Or.inl ⟨f, by simp only [emit, h1], by simp only [emit, h2]⟩
    · rcases ihr s d1 (b + cl.length) (b' + cl'.length) with
        ⟨f, h3, h4⟩ | ⟨cr, cr', d2, h3, h4, hr⟩
      · exact Or.inl ⟨f, by simp only [emit, h1, h3], by simp only [emit, h2, h4]⟩
      · refine Or.inr ⟨_, _, _, (by simp only [emit, h1, h3]; rfl),
          (by simp only [emit, h2, h4]; rfl), ?_⟩
        simp only [List.length_append, hl, hr]
  | definition w value context ihv ihc =>
    intro s d b b'
    rcases ihv s d b b' with ⟨f, h1, h2⟩ | ⟨cl, cl', d1, h1, h2, hl⟩
    · exact Or.inl ⟨f, by simp only [emit, h1], by simp only [emit, h2]⟩
    · rcases ihc ((w, d1 - 1) :: s) d1 (b + cl.length) (b' + cl'.length) with
        ⟨f, h3, h4⟩ | ⟨cr, cr', d2, h3, h4, hr⟩
      · exact Or.inl ⟨f, by simp only [emit, h1, h3], by simp only [emit, h2, h4]⟩
      · refine Or.inr ⟨_, _, _, (by simp only [emit, h1, h3]; rfl),
          (by simp only [emit, h2, h4]; rfl), ?_⟩
        simp only [List.length_append, hl, hr, List.length_cons, List.length_nil]
  | condition test yes no iht ihy ihn =>
    intro s d b b'
    rcases iht s d b b' with ⟨f, h1, h2⟩ | ⟨ct, ct', d1, h1, h2, hl⟩
    · exact Or.inl ⟨f, by simp only [emit, h1], by simp only [emit, h2]⟩
    · rcases ihn s (d1 - 1) (b + ct.length + 1) (b' + ct'.length + 1) with
        ⟨f, h3, h4⟩ | ⟨cn, cn', dn, h3, h4, hn⟩
      · exact Or.inl ⟨f, by simp only [emit, h1, h3], by simp only [emit, h2, h4]⟩
      · rcases ihy s (d1 - 1) (b + ct.length + 1 + cn.length + 1)
            (b' + ct'.length + 1 + cn'.length + 1) with
          ⟨f, h5, h6⟩ | ⟨cy, cy', dy, h5, h6, hy⟩
        · exact Or.inl ⟨f, by simp only [emit, h1, h3, h5], by simp only [emit, h2, h4, h6]⟩
        · by_cases hd : dy = dn
          · refine Or.inr ⟨_, _, _, (by simp only [emit, h1, h3, h5, hd, if_true]; rfl),
              (by simp only [emit, h2, h4, h6, hd, if_true]; rfl), ?_⟩
            simp only [List.length_append, hl, hn, hy, List.length_cons]
          · exact Or.inl ⟨fault.assertion_failed,
              by simp only [emit, h1, h3, h5, hd, if_false],
              by simp only [emit, h2, h4, h6, hd, if_false]⟩

/-- The depth returned by `compile` does not depend on the sequence it
appends to, and neither does its success. -/
theorem compile_depth_any_sequence (e : expression) (c c' r : instructions) (s : symbols)
    (d d' : Int) (h : compile e c s d = .ok (r, d')) :
    ∃ seg, emit e s d c'.length = .ok (seg, d') := by
  obtain ⟨seg, hseg, _⟩ := compile_ok e c r s d d' h
  rcases emit_base e s d c.length c'.length with ⟨f, h1, _⟩ | ⟨x, x', d2, h1, h2, _⟩
  · rw [hseg] at h1; cases h1
  · rw [hseg] at h1
    simp only [Except.ok.injEq, Prod.mk.injEq] at h1
    exact ⟨x', by rw [h2, h1.2]⟩

/-! ## Where the branches and jumps of compiled code lead -/

theorem get?_append_left {α : Type} (l1 l2 : List α) (k : Nat) (h : k < l1.length) :
    (l1 ++ l2).get? k = l1.get? k := by
  simp only [List.get?_eq_getElem?]
  exact List.getElem?_append_left h

theorem get?_append_right {α : Type} (l1 l2 : List α) (k : Nat) (h : l1.length ≤ k) :
    (l1 ++ l2).get? k = l2.get? (k - l1.length) := by
  simp only [List.get?_eq_getElem?]
  exact List.getElem?_append_right h

theorem get?_lt_length {α : Type} (l : List α) (k : Nat) (a : α) (h : l.get? k = some a) :
    k < l.length := by
  simp only [List.get?_eq_getElem?] at h
  exact (List.getElem?_eq_some_iff.mp h).1

theorem forward_within_nil (base limit : Nat) : forward_within [] base limit := by
  intro k ins t h
  cases h

theorem forward_within_mono (c : instructions) (base limit limit' : Nat) (hl : limit ≤ limit')
    (h : forward_within c base limit) : forward_within c base limit' := by
  intro k ins t hk ht
  have := h k ins t hk ht
  omega

theorem forward_within_append (c1 c2 : instructions) (base limit : Nat)
    (h1 : forward_within c1 base limit)
    (h2 : forward_within c2 (base + c1.length) limit) :
    forward_within (c1 ++ c2) base limit := by
  intro k ins t hk ht
  by_cases hlt : k < c1.length
  · rw [get?_append_left c1 c2 k hlt] at hk
    exact h1 k ins t hk ht
  · have hge : c1.length ≤ k := Nat.le_of_not_lt hlt
    rw [get?_append_right c1 c2 k hge] at hk
    have := h2 (k - c1.length) ins t hk ht
    have e : base + c1.length + (k - c1.length) = base + k := by omega
    rw [e] at this
    exact this

theorem forward_within_cons (ins : instruction) (c : instructions) (base limit : Nat)
    (h1 : ∀ t, target_of ins = some t → ((base : Nat) : Int) < t ∧ t ≤ (limit : Int))
    (h2 : forward_within c (base + 1) limit) :
    forward_within (ins :: c) base limit := by
  intro k x t hk ht
  cases k with
  | zero =>
    simp only [List.get?_cons_zero, Option.some.injEq] at hk
    subst hk
    exact h1 t ht
  | succ k =>
    simp only [List.get?_cons_succ] at hk
    have := h2 k x t hk ht
    have e : base + 1 + k = base + (k + 1) := by omega
    rw [e] at this
    exact this

/-- Every branch and jump that `compile` emits goes forward, at most to the
index just after the code emitted by the same call. -/
theorem emit_forward (e : expression) :
    ∀ (s : symbols) (d : Int) (base : Nat) (c : instructions) (d' : Int),
      emit e s d base = .ok (c, d') → forward_within c base (base + c.length) := by
  induction e with
  | literal v =>
    intro s d base c d' h
    simp only [emit, Except.ok.injEq, Prod.mk.injEq] at h
    rw [← h.1]
    exact forward_within_cons _ _ _ _ (fun t ht => by cases ht) (forward_within_nil _ _)
  | word w =>
    intro s d base c d' h
    simp only [emit] at h
    cases hs : scan s w with
    | none => rw [hs] at h; cases h
    | some p =>
      rw [hs] at h
      simp only [Except.ok.injEq, Prod.mk.injEq] at h
      rw [← h.1]
      exact forward_within_cons _ _ _ _ (fun t ht => by cases ht) (forward_within_nil _ _)
  | addition left right ihl ihr =>
    intro s d base c d' h
    simp only [emit] at h
    cases hl : emit left s d base with
    | error f => rw [hl] at h; cases h
    | ok p =>
      obtain ⟨cl, d1⟩ := p
      rw [hl] at h
      simp only [] at h
      cases hr : emit right s d1 (base + cl.length) with
      | error f => rw [hr] at h; cases h
      | ok q =>
        obtain ⟨cr, d2⟩ := q
        rw [hr] at h
        simp only [Except.ok.injEq, Prod.mk.injEq] at h
        rw [← h.1]
        have e1 : base + (cl ++ (cr ++ [instruction.add])).length =
            base + cl.length + cr.length + 1 := by
          simp only [List.length_append, List.length_cons, List.length_nil]; omega
        rw [e1]
        refine forward_within_append _ _ _ _
          (forward_within_mono _ _ _ _ (by omega) (ihl s d base cl d1 hl)) ?_
        refine forward_within_append _ _ _ _
          (forward_within_mono _ _ _ _ (by omega) (ihr s d1 _ cr d2 hr)) ?_
        exact forward_within_cons _ _ _ _ (fun t ht => by cases ht) (forward_within_nil _ _)
  | definition w value context ihv ihc =>
    intro s d base c d' h
    simp only [emit] at h
    cases hl : emit value s d base with
    | error f => rw [hl] at h; cases h
    | ok p =>
      obtain ⟨cl, d1⟩ := p
      rw [hl] at h
      simp only [] at h
      cases hr : emit context ((w, d1 - 1) :: s) d1 (base + cl.length) with
      | error f => rw [hr] at h; cases h
      | ok q =>
        obtain ⟨cr, d2⟩ := q
        rw [hr] at h
        simp only [Except.ok.injEq, Prod.mk.injEq] at h
        rw [← h.1]
        have e1 : base + (cl ++ (cr ++ [instruction.drop (d2 - 2)])).length =
            base + cl.length + cr.length + 1 := by
          simp only [List.length_append, List.length_cons, List.length_nil]; omega
        rw [e1]
        refine forward_within_append _ _ _ _
          (forward_within_mono _ _ _ _ (by omega) (ihv s d base cl d1 hl)) ?_
        refine forward_within_append _ _ _ _
          (forward_within_mono _ _ _ _ (by omega) (ihc _ d1 _ cr d2 hr)) ?_
        exact forward_within_cons _ _ _ _ (fun t ht => by cases ht) (forward_within_nil _ _)
  | condition test yes no iht ihy ihn =>
    intro s d base c d' h
    simp only [emit] at h
    cases ht : emit test s d base with
    | error f => rw [ht] at h; cases h
    | ok p =>
      obtain ⟨ct, d1⟩ := p
      rw [ht] at h
      simp only [] at h
      cases hn : emit no s (d1 - 1) (base + ct.length + 1) with
      | error f => rw [hn] at h; cases h
      | ok q =>
        obtain ⟨cn, dn⟩ := q
        rw [hn] at h
        simp only [] at h
        cases hy : emit yes s (d1 - 1) (base + ct.length + 1 + cn.length + 1) with
        | error f => rw [hy] at h; cases h
        | ok r =>
          obtain ⟨cy, dy⟩ := r
          rw [hy] at h
          simp only [] at h
          by_cases hd : dy = dn
          · simp only [hd, if_true, Except.ok.injEq, Prod.mk.injEq] at h
            rw [← h.1]
            have e1 : base + (ct ++ instruction.branch
                ((base + ct.length + 1 + cn.length + 1 : Nat) : Int) :: (cn ++
                  instruction.jump
                    ((base + ct.length + 1 + cn.length + 1 + cy.length : Nat) : Int) ::
                      cy)).length =
                base + ct.length + 1 + cn.length + 1 + cy.length := by
              simp only [List.length_append, List.length_cons]; omega
            rw [e1]
            refine forward_within_append _ _ _ _
              (forward_within_mono _ _ _ _ (by omega) (iht s d base ct d1 ht)) ?_
            refine forward_within_cons _ _ _ _ ?_ ?_
            · intro t ht'
              simp only [target_of, Option.some.injEq] at ht'
              omega
            refine forward_within_append _ _ _ _
              (forward_within_mono _ _ _ _ (by omega) (ihn s _ _ cn dn hn)) ?_
            refine forward_within_cons _ _ _ _ ?_ ?_
            · intro t ht'
              simp only [target_of, Option.some.injEq] at ht'
              omega
            exact ihy s _ _ cy dy hy
          · simp only [hd, if_false] at h
            cases h

/-! ## The instrumented loop on confined code -/

theorem trace_none (c : instructions) (fuel i : Nat) (s : stack) (hg : c.get? i = none) :
    trace c fuel i s = [] := by
  cases fuel <;> simp only [trace, hg]

theorem trace_fault (c : instructions) (fuel i : Nat) (s : stack) (ins : instruction)
    (f : fault) (hg : c.get? i = some ins) (hs : step ins i s = .error f) :
    trace c (fuel + 1) i s = [(i, s)] := by
  simp only [trace, hg, hs]

theorem trace_step (c : instructions) (fuel i : Nat) (s : stack) (ins : instruction)
    (i' : Nat) (s' : stack) (hg : c.get? i = some ins) (hs : step ins i s = .ok (i', s')) :
    trace c (fuel + 1) i s = (i, s) :: trace c fuel i' s' := by
  simp only [trace, hg, hs]

/-- The next index after a successful turn of the loop is the following one
or the target of the instruction. -/
theorem step_next (ins : instruction) (i i' : Nat) (s s' : stack)
    (h : step ins i s = .ok (i', s')) :
    i' = i + 1 ∨ ∃ t, target_of ins = some t ∧ 0 ≤ t ∧ i' = t.toNat := by
  cases ins with
  | load_literal v =>
    simp only [step, Except.ok.injEq, Prod.mk.injEq] at h
    exact Or.inl h.1.symm
  | add =>
    simp only [step] at h
    split at h
    · cases h
    · split at h
      · cases h
      · simp only [Except.ok.injEq, Prod.mk.injEq] at h
        exact Or.inl h.1.symm
  | copy slot =>
    simp only [step] at h
    split at h
    · cases h
    · split at h
      · cases h
      · simp only [Except.ok.injEq, Prod.mk.injEq] at h
        exact Or.inl h.1.symm
  | drop slot =>
    simp only [step] at h
    split at h
    · cases h
    · simp only [Except.ok.injEq, Prod.mk.injEq] at h
      exact Or.inl h.1.symm
  | branch target =>
    simp only [step, goto] at h
    split at h
    · cases h
    · split at h
      · split at h
        · cases h
        · rename_i hg
          split at hg
          · cases hg
          · simp only [Except.ok.injEq] at hg
            simp only [Except.ok.injEq, Prod.mk.injEq] at h
            refine Or.inr ⟨target, rfl, by omega, ?_⟩
            rw [← h.1, ← hg]
      · simp only [Except.ok.injEq, Prod.mk.injEq] at h
        exact Or.inl h.1.symm
  | jump target =>
    simp only [step, goto] at h
    split at h
    · cases h
    · rename_i hg
      split at hg
      · cases hg
      · simp only [Except.ok.injEq] at hg
        simp only [Except.ok.injEq, Prod.mk.injEq] at h
        refine Or.inr ⟨target, rfl, by omega, ?_⟩
        rw [← h.1, ← hg]

/-- A run that starts inside a confined region executes instructions of the
region only, until it reaches the end `hi` of the region (if it does). -/
theorem trace_region (c : instructions) (lo hi : Nat) (hconf : confined c lo hi) (fuel : Nat) :
    ∀ (i : Nat) (s : stack), lo ≤ i → i ≤ hi →
      ∃ tr, (∀ x ∈ tr, lo ≤ x.1 ∧ x.1 < hi) ∧
        (trace c fuel i s = tr ∨ ∃ fuel' s', trace c fuel i s = tr ++ trace c fuel' hi s') := by
  induction fuel with
  | zero =>
    intro i s _ _
    exact ⟨[], fun x hx => absurd hx (List.not_mem_nil x), Or.inl rfl⟩
  | succ fuel ih =>
    intro i s hlo hhi
    by_cases hi_eq : i = hi
    · subst hi_eq
      exact ⟨[], fun x hx => absurd hx (List.not_mem_nil x), Or.inr ⟨fuel + 1, s, rfl⟩⟩
    have hlt : i < hi := by omega
    cases hg : c.get? i with
    | none => exact ⟨[], fun x hx => absurd hx (List.not_mem_nil x), Or.inl (trace_none c _ i s hg)⟩
    | some ins =>
      cases hs : step ins i s with
      | error f =>
        refine ⟨[(i, s)], ?_, Or.inl (trace_fault c fuel i s ins f hg hs)⟩
        intro x hx
        simp only [List.mem_singleton] at hx
        subst hx
        exact ⟨hlo, hlt⟩
      | ok p =>
        obtain ⟨i', s'⟩ := p
        have hi' : lo ≤ i' ∧ i' ≤ hi := by
          rcases step_next ins i i' s s' hs with h1 | ⟨t, ht, h0, h1⟩
          · omega
          · have := hconf i ins t hlo hlt hg ht
            omega
        obtain ⟨tr, htr, hrest⟩ := ih i' s' hi'.1 hi'.2
        refine ⟨(i, s) :: tr, ?_, ?_⟩
        · intro x hx
          rcases List.mem_cons.mp hx with hx | hx
          · subst hx
            exact ⟨hlo, hlt⟩
          · exact htr x hx
        · rw [trace_step c fuel i s ins i' s' hg hs]
          rcases hrest with h | ⟨fuel', s'', h⟩
          · exact Or.inl (by rw [h])
          · exact Or.inr ⟨fuel', s'', by rw [h]; rfl⟩

/-- A segment of forward branches placed between `pre` and `post` is a
confined region of the whole sequence. -/
theorem confined_of_segment (pre seg post : instructions)
    (h : forward_within seg pre.length (pre.length + seg.length)) :
    confined (pre ++ (seg ++ post)) pre.length (pre.length + seg.length) := by
  intro i ins t hlo hhi hg ht
  rw [get?_append_right pre _ i hlo, get?_append_left seg post _ (by omega)] at hg
  have := h (i - pre.length) ins t hg ht
  omega

theorem step_branch_empty (t : Int) (i : Nat) (s : stack) (h : s.getLast? = none) :
    step (.branch t) i s = .error fault.assertion_failed := by
  simp only [step, stack_pop, h]

theorem step_branch_zero (t : Int) (i : Nat) (s : stack) (h : s.getLast? = some 0) :
    step (.branch t) i s = .ok (i + 1, s.dropLast) := by
  simp only [step, stack_pop, h, ne_eq, not_true_eq_false, if_false]

theorem step_branch_nonzero (T i : Nat) (s : stack) (w : Int) (h : s.getLast? = some w)
    (hw : w ≠ 0) : step (.branch (T : Int)) i s = .ok (T, s.dropLast) := by
  have h0 : ¬ ((T : Int) < 0) := by omega
  simp only [step, stack_pop, h, ne_eq, hw, not_false_eq_true, if_true, goto, h0, if_false,
    Int.toNat_ofNat]

theorem step_jump (L i : Nat) (s : stack) : step (.jump (L : Int)) i s = .ok (L, s) := by
  have h0 : ¬ ((L : Int) < 0) := by omega
  simp only [step, goto, h0, if_false, Int.toNat_ofNat]

/-- On a sequence laid out as test code, `Branch` at index `B`, `no` code,
`Jump` at index `J`, `yes` code from index `T = J + 1` up to the end `L`,
with forward branches inside the three segments, the state in which the
`Branch` is executed decides which arm runs: the instructions of the other
arm are never executed. -/
theorem arms_exclusive (ct cn cy : instructions) (B J T L : Nat) (s0 : stack)
    (hB : B = ct.length) (hJ : J = B + 1 + cn.length) (hT : T = J + 1)
    (hL : L = T + cy.length)
    (h1 : forward_within ct 0 B) (h2 : forward_within cn (B + 1) J)
    (h3 : forward_within cy T L)
    (fuel : Nat) (st : stack) (v : Int)
    (hmem : (B, st) ∈
      trace (ct ++ (.branch (T : Int) :: (cn ++ (.jump (L : Int) :: cy)))) fuel 0 s0)
    (hv : st.getLast? = some v) :
    (v ≠ 0 → ∀ p ∈
      trace (ct ++ (.branch (T : Int) :: (cn ++ (.jump (L : Int) :: cy)))) fuel 0 s0,
        ¬ (B < p.1 ∧ p.1 < J)) ∧
    (v = 0 → ∀ p ∈
      trace (ct ++ (.branch (T : Int) :: (cn ++ (.jump (L : Int) :: cy)))) fuel 0 s0,
        ¬ (T ≤ p.1 ∧ p.1 < L)) := by
  generalize hcode :
    (ct ++ (instruction.branch (T : Int) :: (cn ++ (instruction.jump (L : Int) :: cy)))) = code
    at hmem ⊢
  -- the three regions
  have hA : confined code 0 B := by
    have := confined_of_segment [] ct
      (instruction.branch (T : Int) :: (cn ++ (instruction.jump (L : Int) :: cy)))
      (by rw [List.length_nil, Nat.zero_add, ← hB]; exact h1)
    rw [List.length_nil, Nat.zero_add, List.nil_append, ← hB, hcode] at this
    exact this
  have hN : confined code (B + 1) J := by
    have l : (ct ++ [instruction.branch (T : Int)]).length = B + 1 := by
      rw [List.length_append, ← hB]; rfl
    have e : (ct ++ [instruction.branch (T : Int)]) ++
        (cn ++ (instruction.jump (L : Int) :: cy)) = code := by
      rw [← hcode]; simp only [List.append_assoc, List.singleton_append]
    have := confined_of_segment (ct ++ [instruction.branch (T : Int)]) cn
      (instruction.jump (L : Int) :: cy) (by rw [l, ← hJ]; exact h2)
    rw [l, ← hJ, e] at this
    exact this
  have hY : confined code T L := by
    have l : (ct ++ (instruction.branch (T : Int) ::
        (cn ++ [instruction.jump (L : Int)]))).length = T := by
      simp only [List.length_append, List.length_cons, List.length_nil]; omega
    have e : (ct ++ (instruction.branch (T : Int) :: (cn ++ [instruction.jump (L : Int)]))) ++
        (cy ++ []) = code := by
      rw [← hcode]
      simp only [List.append_assoc, List.singleton_append, List.cons_append, List.append_nil,
        List.nil_append]
    have := confined_of_segment
      (ct ++ (instruction.branch (T : Int) :: (cn ++ [instruction.jump (L : Int)]))) cy []
      (by rw [l, ← hL]; exact h3)
    rw [l, ← hL, e] at this
    exact this
  -- the branch, the jump and the end
  have hgB : code.get? B = some (instruction.branch (T : Int)) := by
    rw [← hcode, hB]
    exact get?_mid _ _ _
  have hgJ : code.get? J = some (instruction.jump (L : Int)) := by
    have e : (ct ++ (instruction.branch (T : Int) :: cn)) ++
        (instruction.jump (L : Int) :: cy) = code := by
      rw [← hcode]; simp only [List.append_assoc, List.cons_append]
    have l : (ct ++ (instruction.branch (T : Int) :: cn)).length = J := by
      simp only [List.length_append, List.length_cons]; omega
    rw [← e, ← l]
    exact get?_mid _ _ _
  have hgL : code.get? L = none := by
    have l : code.length = L := by
      rw [← hcode]
      simp only [List.length_append, List.length_cons]; omega
    rw [← l]
    simp
  -- a run of the yes arm
  have yes_run : ∀ f s, ∀ x ∈ trace code f T s, T ≤ x.1 := by
    intro f s x hx
    obtain ⟨tr, htr, hrest⟩ := trace_region code _ _ hY f T s (Nat.le_refl _) (by omega)
    rcases hrest with h | ⟨f', s', h⟩
    · rw [h] at hx
      exact (htr x hx).1
    · rw [h, trace_none code f' _ s' hgL, List.append_nil] at hx
      exact (htr x hx).1
  -- a run of the no arm
  have no_run : ∀ f s, ∀ x ∈ trace code f (B + 1) s, B + 1 ≤ x.1 ∧ x.1 ≤ J := by
    intro f s x hx
    obtain ⟨tr, htr, hrest⟩ := trace_region code _ _ hN f (B + 1) s (Nat.le_refl _) (by omega)
    rcases hrest with h | ⟨f', s', h⟩
    · rw [h] at hx
      have := htr x hx
      omega
    · rw [h] at hx
      rcases List.mem_append.mp hx with hx | hx
      · have := htr x hx
        omega
      · cases f' with
        | zero => simp only [trace] at hx; exact absurd hx (List.not_mem_nil x)
        | succ f' =>
          rw [trace_step code f' _ s' _ _ s' hgJ (step_jump _ _ s'),
            trace_none code f' _ s' hgL, List.mem_singleton] at hx
          subst hx
          simp only
          omega
  -- the run of the test, up to the branch
  obtain ⟨tr, htr, hrest⟩ := trace_region code 0 B hA fuel 0 s0 (Nat.le_refl _)
    (Nat.zero_le _)
  rcases hrest with h | ⟨f', sB, h⟩
  · rw [h] at hmem
    have := (htr _ hmem).2
    simp only at this
    omega
  rw [h] at hmem ⊢
  rcases List.mem_append.mp hmem with hm | hm
  · have := (htr _ hm).2
    simp only at this
    omega
  cases f' with
  | zero => simp only [trace] at hm; exact absurd hm (List.not_mem_nil _)
  | succ f' =>
    cases hl : sB.getLast? with
    | none =>
      rw [trace_fault code f' _ sB _ _ hgB (step_branch_empty _ _ sB hl),
        List.mem_singleton] at hm
      simp only [Prod.mk.injEq, true_and] at hm
      rw [hm, hl] at hv
      cases hv
    | some w =>
      by_cases hw : w = 0
      · subst hw
        rw [trace_step code f' _ sB _ _ _ hgB (step_branch_zero _ _ sB hl)] at hm ⊢
        have hst : st = sB := by
          rcases List.mem_cons.mp hm with hm | hm
          · simp only [Prod.mk.injEq, true_and] at hm
            exact hm
          · have := (no_run _ _ _ hm).1
            simp only at this
            omega
        rw [hst, hl] at hv
        simp only [Option.some.injEq] at hv
        refine ⟨fun hne => absurd hv.symm hne, fun _ p hp => ?_⟩
        rcases List.mem_append.mp hp with hp | hp
        · have := (htr p hp).2
          omega
        · rcases List.mem_cons.mp hp with hp | hp
          · subst hp
            simp only
            omega
          · have := (no_run _ _ p hp).2
            omega
      · rw [trace_step code f' _ sB _ _ _ hgB (step_branch_nonzero _ _ sB w hl hw)] at hm ⊢
        have hst : st = sB := by
          rcases List.mem_cons.mp hm with hm | hm
          · simp only [Prod.mk.injEq, true_and] at hm
            exact hm
          · have := yes_run _ _ _ hm
            simp only at this
            omega
        rw [hst, hl] at hv
        simp only [Option.some.injEq] at hv
        refine ⟨fun _ p hp => ?_, fun h0 => absurd (hv.trans h0) hw⟩
        rcases List.mem_append.mp hp with hp | hp
        · have := (htr p hp).2
          omega
        · rcases List.mem_cons.mp hp with hp | hp
          · subst hp
            simp only
            omega
          · have := yes_run _ _ p hp
            omega

/-- The layout of the code of a condition, in terms of the code of its three
parts: `c1` is the sequence after the test, `c2` the sequence after the `no`
arm; the returned depth is the depth after the `Branch`. -/
theorem condition_layout (test yes no : expression) (instructs c1 c2 code : instructions)
    (s : symbols) (d d1 dn depth : Int)
    (hc : compile (.condition test yes no) instructs s d = .ok (code, depth))
    (ht : compile test instructs s d = .ok (c1, d1))
    (hn : compile no (c1 ++ [.branch 0]) s (d1 - 1) = .ok (c2, dn)) :
    ∃ ct cn cy, c1 = instructs ++ ct ∧ c2 = instructs ++ (ct ++ (.branch 0 :: cn)) ∧
      code = instructs ++ (ct ++
        (.branch ((instructs.length + ct.length + 1 + cn.length + 1 : Nat) : Int) ::
          (cn ++ (.jump ((instructs.length + ct.length + 1 + cn.length + 1 + cy.length : Nat)
            : Int) :: cy)))) ∧
      emit test s d instructs.length = .ok (ct, d1) ∧
      emit no s (d1 - 1) (instructs.length + ct.length + 1) = .ok (cn, dn) ∧
      emit yes s (d1 - 1) (instructs.length + ct.length + 1 + cn.length + 1) = .ok (cy, dn) ∧
      depth = d1 - 1 := by
  obtain ⟨ct, het, hc1⟩ := compile_ok test instructs c1 s d d1 ht
  obtain ⟨cn, hen, hc2⟩ := compile_ok no _ c2 s (d1 - 1) dn hn
  have l : (c1 ++ [instruction.branch 0]).length = instructs.length + ct.length + 1 := by
    rw [hc1, List.length_append, List.length_append]; rfl
  rw [l] at hen
  obtain ⟨seg, hes, hcode⟩ := compile_ok _ instructs code s d depth hc
  simp only [emit, het, hen] at hes
  cases hy : emit yes s (d1 - 1) (instructs.length + ct.length + 1 + cn.length + 1) with
  | error f => rw [hy] at hes; cases hes
  | ok r =>
    obtain ⟨cy, dy⟩ := r
    rw [hy] at hes
    simp only [] at hes
    by_cases hd : dy = dn
    · simp only [hd, if_true, Except.ok.injEq, Prod.mk.injEq] at hes
      refine ⟨ct, cn, cy, hc1, ?_, ?_, het, hen, by rw [hy, hd], hes.2.symm⟩
      · rw [hc2, hc1]
        simp only [List.append_assoc, List.singleton_append]
      · rw [hcode, ← hes.1]
    · simp only [hd, if_false] at hes
      cases hes

/-- A condition that compiles has a test that compiles and a `no` arm that
compiles on the sequence that follows the placeholder `Branch`. -/
theorem condition_parts (test yes no : expression) (instructs code : instructions)
    (s : symbols) (d depth : Int)
    (hc : compile (.condition test yes no) instructs s d = .ok (code, depth)) :
    ∃ c1 d1 c2 dn, compile test instructs s d = .ok (c1, d1) ∧
      compile no (c1 ++ [.branch 0]) s (d1 - 1) = .ok (c2, dn) := by
  simp only [compile, push_instruction] at hc
  cases ht : compile test instructs s d with
  | error f => rw [ht] at hc; cases hc
  | ok p =>
    obtain ⟨c1, d1⟩ := p
    rw [ht] at hc
    simp only [] at hc
    cases hn : compile no (c1 ++ [instruction.branch 0]) s (d1 - 1) with
    | error f => rw [hn] at hc; cases hc
    | ok q =>
      obtain ⟨c2, dn⟩ := q
      exact ⟨c1, d1, c2, dn, rfl, hn⟩

/-- The arms of a compiled condition exclude each other, with the sequence
after the test (`ct`) and the sequence after the `no` arm (`c2`) given. -/
theorem arms_exclusive_compiled (test yes no : expression) (code ct c2 : instructions)
    (depth d1 dn : Int)
    (hc : compile (.condition test yes no) [] [] 0 = .ok (code, depth))
    (ht : compile test [] [] 0 = .ok (ct, d1))
    (hn : compile no (ct ++ [.branch 0]) [] (d1 - 1) = .ok (c2, dn)) :
    code.get? ct.length = some (.branch ((c2.length + 1 : Nat) : Int)) ∧
    code.get? c2.length = some (.jump ((code.length : Nat) : Int)) ∧
    ∀ (fuel : Nat) (st : stack) (v : Int),
      (ct.length, st) ∈ trace code fuel 0 [] → st.getLast? = some v →
        (v ≠ 0 → ∀ p ∈ trace code fuel 0 [], ¬ (ct.length < p.1 ∧ p.1 < c2.length)) ∧
        (v = 0 → ∀ p ∈ trace code fuel 0 [],
          ¬ (c2.length + 1 ≤ p.1 ∧ p.1 < code.length)) := by
  obtain ⟨ct', cn, cy, h1, h2, h3, het, hen, hey, _⟩ :=
    condition_layout test yes no [] ct c2 code [] 0 d1 dn depth hc ht hn
  rw [List.nil_append] at h1 h2 h3
  subst h1
  simp only [List.length_nil, Nat.zero_add] at h3 het hen hey
  obtain ⟨T, hT⟩ : ∃ T : Nat, T = ct.length + 1 + cn.length + 1 := ⟨_, rfl⟩
  obtain ⟨L, hL⟩ : ∃ L : Nat, L = ct.length + 1 + cn.length + 1 + cy.length := ⟨_, rfl⟩
  rw [← hL, ← hT] at h3
  have lJ : c2.length = ct.length + 1 + cn.length := by
    rw [h2]; simp only [List.length_append, List.length_cons]; omega
  have lT : c2.length + 1 = T := by omega
  have lL : code.length = L := by
    rw [h3]; simp only [List.length_append, List.length_cons]; omega
  have f1 := emit_forward test [] 0 0 ct d1 het
  have f2 := emit_forward no [] (d1 - 1) (ct.length + 1) cn dn hen
  have f3 := emit_forward yes [] (d1 - 1) (ct.length + 1 + cn.length + 1) cy dn hey
  rw [Nat.zero_add] at f1
  rw [← lJ] at f2
  rw [← hL, ← hT] at f3
  rw [lT, lL]
  refine ⟨?_, ?_, ?_⟩
  · rw [h3]
    exact get?_mid _ _ _
  · have e : code = (ct ++ (instruction.branch (T : Int) :: cn)) ++
        (instruction.jump (L : Int) :: cy) := by
      rw [h3]; simp only [List.append_assoc, List.cons_append]
    have l : (ct ++ (instruction.branch (T : Int) :: cn)).length = c2.length := by
      simp only [List.length_append, List.length_cons]; omega
    rw [e, ← l]
    exact get?_mid _ _ _
  · intro fuel st v hmem hv
    have key := arms_exclusive ct cn cy ct.length c2.length T L []
      rfl lJ lT.symm (by omega) f1 f2 f3 fuel st v (by rw [← h3]; exact hmem) hv
    rw [← h3] at key
    exact key

/-! ## The loop of `Drop` -/

theorem drop_shift_length (fuel : Nat) :
    ∀ (i : Nat) (values : List Int), (drop_shift fuel i values).length = values.length := by
  induction fuel with
  | zero => intro i values; rfl
  | succ fuel ih =>
    intro i values
    simp only [drop_shift]
    split
    · rw [ih, List.length_set]
    · rfl

/-- The cells after the loop: cell `k` holds the old cell `k + 1` when the
loop passed over `k`, and is unchanged otherwise. -/
theorem drop_shift_cell (fuel : Nat) :
    ∀ (i : Nat) (values : List Int) (k : Nat),
      (drop_shift fuel i values)[k]? =
        if i ≤ k ∧ k < i + fuel ∧ k + 1 < values.length then values[k + 1]? else values[k]? := by
  induction fuel with
  | zero =>
    intro i values k
    have h : ¬ (i ≤ k ∧ k < i + 0 ∧ k + 1 < values.length) := by omega
    simp only [drop_shift, h, if_false]
  | succ fuel ih =>
    intro i values k
    simp only [drop_shift]
    by_cases hlt : i + 1 < values.length
    · simp only [hlt, if_true]
      rw [ih, List.length_set]
      have hd : values.getD (i + 1) 0 = values[i + 1] := by
        simp [List.getD_eq_getElem?_getD, hlt]
      by_cases hk : k < i
      · have h1 : ¬ (i + 1 ≤ k ∧ k < i + 1 + fuel ∧ k + 1 < values.length) := by omega
        have h2 : ¬ (i ≤ k ∧ k < i + (fuel + 1) ∧ k + 1 < values.length) := by omega
        rw [if_neg h1, if_neg h2, List.getElem?_set]
        have h3 : ¬ i = k := by omega
        rw [if_neg h3]
      · by_cases hki : k = i
        · subst hki
          have h1 : ¬ (k + 1 ≤ k ∧ k < k + 1 + fuel ∧ k + 1 < values.length) := by omega
          have h2 : k ≤ k ∧ k < k + (fuel + 1) ∧ k + 1 < values.length := by omega
          rw [if_neg h1, if_pos h2, List.getElem?_set]
          have h3 : k < values.length := by omega
          rw [if_pos rfl, if_pos h3, hd]
          exact (List.getElem?_eq_getElem hlt).symm
        · by_cases hc : k < i + 1 + fuel ∧ k + 1 < values.length
          · have h1 : i + 1 ≤ k ∧ k < i + 1 + fuel ∧ k + 1 < values.length := by omega
            have h2 : i ≤ k ∧ k < i + (fuel + 1) ∧ k + 1 < values.length := by omega
            rw [if_pos h1, if_pos h2, List.getElem?_set]
            have h3 : ¬ i = k + 1 := by omega
            rw [if_neg h3]
          · have h1 : ¬ (i + 1 ≤ k ∧ k < i + 1 + fuel ∧ k + 1 < values.length) := by omega
            have h2 : ¬ (i ≤ k ∧ k < i + (fuel + 1) ∧ k + 1 < values.length) := by omega
            rw [if_neg h1, if_neg h2, List.getElem?_set]
            have h3 : ¬ i = k := by omega
            rw [if_neg h3]
    · simp only [hlt, if_false]
      have h2 : ¬ (i ≤ k ∧ k < i + (fuel + 1) ∧ k + 1 < values.length) := by omega
      rw [if_neg h2]

/-- The loop of `Drop` followed by `size--` removes the cell at `slot` and
closes the gap. -/
theorem drop_cells_eq_eraseIdx (s : stack) (slot : Nat) (h : slot < s.length) :
    drop_cells s slot = s.eraseIdx slot := by
  apply List.ext_getElem?
  intro k
  unfold drop_cells
  rw [List.getElem?_dropLast, drop_shift_length, drop_shift_cell, List.getElem?_eraseIdx]
  by_cases hk : k < s.length - 1
  · simp only [hk, if_true]
    by_cases hks : k < slot
    · have h1 : ¬ (slot ≤ k ∧ k < slot + s.length ∧ k + 1 < s.length) := by omega
      simp only [h1, hks, if_false, if_true]
    · have h1 : slot ≤ k ∧ k < slot + s.length ∧ k + 1 < s.length := by omega
      simp only [h1, hks, if_false, if_true, and_self]
  · simp only [hk, if_false]
    have h1 : ¬ k < slot := by omega
    simp only [h1, if_false]
    exact (List.getElem?_eq_none (by omega)).symm

/-- With the slot at or above the top the loop moves nothing; the top goes. -/
theorem drop_cells_eq_dropLast (s : stack) (slot : Nat) (h : s.length ≤ slot + 1) :
    drop_cells s slot = s.dropLast := by
  apply List.ext_getElem?
  intro k
  unfold drop_cells
  rw [List.getElem?_dropLast, drop_shift_length, drop_shift_cell, List.getElem?_dropLast]
  have h1 : ¬ (slot ≤ k ∧ k < slot + s.length ∧ k + 1 < s.length) := by omega
  simp only [h1, if_false]

/-- The `is_drop` case of the embedding is the loop of the source, whenever
the run is defined. -/
theorem stack_drop_eq_cells (s : stack) (slot : Int) (hs : s ≠ []) (h0 : 0 ≤ slot) :
    stack_drop s slot = .ok (drop_cells s slot.toNat) := by
  unfold stack_drop
  have h1 : ¬ slot < 0 := by omega
  simp only [hs, h1, if_false]
  by_cases hlt : slot.toNat < s.length
  · simp only [hlt, if_true, drop_cells_eq_eraseIdx s _ hlt]
  · simp only [hlt, if_false]
    rw [drop_cells_eq_dropLast s slot.toNat (by omega)]

/-! ## Termination of the loop on forward code -/

theorem stack_pop_fault (s : stack) (f : fault) (h : stack_pop s = .error f) :
    f = fault.assertion_failed := by
  unfold stack_pop at h
  split at h
  · simp only [Except.error.injEq] at h
    exact h.symm
  · cases h

theorem stack_drop_fault (s : stack) (slot : Int) (f : fault)
    (h : stack_drop s slot = .error f) : f = fault.undefined_behaviour := by
  unfold stack_drop at h
  split at h
  · simp only [Except.error.injEq] at h
    exact h.symm
  · split at h
    · simp only [Except.error.injEq] at h
      exact h.symm
    · split at h <;> cases h

theorem goto_fault (t : Int) (f : fault) (h : goto t = .error f) :
    f = fault.undefined_behaviour := by
  unfold goto at h
  split at h
  · simp only [Except.error.injEq] at h
    exact h.symm
  · cases h

/-- A turn of the loop fails on a pop of the empty stack or on an access
outside the arrays, and in no other way. -/
theorem step_fault (ins : instruction) (i : Nat) (s : stack) (f : fault)
    (h : step ins i s = .error f) :
    f = fault.assertion_failed ∨ f = fault.undefined_behaviour := by
  cases ins with
  | load_literal v => simp only [step] at h; cases h
  | add =>
    simp only [step] at h
    split at h
    · rename_i hp
      simp only [Except.error.injEq] at h
      subst h
      exact Or.inl (stack_pop_fault _ _ hp)
    · split at h
      · rename_i hp
        simp only [Except.error.injEq] at h
        subst h
        exact Or.inl (stack_pop_fault _ _ hp)
      · cases h
  | copy slot =>
    simp only [step] at h
    split at h
    · simp only [Except.error.injEq] at h
      exact Or.inr h.symm
    · split at h
      · simp only [Except.error.injEq] at h
        exact Or.inr h.symm
      · cases h
  | drop slot =>
    simp only [step] at h
    split at h
    · rename_i hp
      simp only [Except.error.injEq] at h
      subst h
      exact Or.inr (stack_drop_fault _ _ _ hp)
    · cases h
  | branch target =>
    simp only [step] at h
    split at h
    · rename_i hp
      simp only [Except.error.injEq] at h
      subst h
      exact Or.inl (stack_pop_fault _ _ hp)
    · split at h
      · split at h
        · rename_i hp
          simp only [Except.error.injEq] at h
          subst h
          exact Or.inr (goto_fault _ _ hp)
        · cases h
      · cases h
  | jump target =>
    simp only [step] at h
    split at h
    · rename_i hp
      simp only [Except.error.injEq] at h
      subst h
      exact Or.inr (goto_fault _ _ hp)
    · cases h

/-- A turn of the loop never fails for lack of budget: the budget belongs to
the loop, not to the instructions. -/
theorem step_fault_ne_out_of_fuel (ins : instruction) (i : Nat) (s : stack) (f : fault)
    (h : step ins i s = .error f) : f ≠ fault.out_of_fuel := by
  rcases step_fault ins i s f h with h1 | h1 <;> rw [h1] <;> intro h2 <;> cases h2

/-- When every turn of the loop moves the index forward, the loop ends
within as many turns as there are instructions left. -/
theorem run_terminates_of_forward (c : instructions)
    (hfw : ∀ i ins s i' s', c.get? i = some ins → step ins i s = .ok (i', s') → i < i')
    (fuel : Nat) :
    ∀ (i : Nat) (s : stack), c.length ≤ i + fuel → run c fuel i s ≠ .error fault.out_of_fuel := by
  induction fuel with
  | zero =>
    intro i s hle
    have hg : c.get? i = none := by
      rw [List.get?_eq_getElem?]
      exact List.getElem?_eq_none (by omega)
    rw [run_none c 0 i s hg]
    intro h
    cases h
  | succ fuel ih =>
    intro i s hle
    cases hg : c.get? i with
    | none =>
      rw [run_none c _ i s hg]
      intro h
      cases h
    | some ins =>
      cases hs : step ins i s with
      | error f =>
        rw [run_fault c fuel i s ins f hg hs]
        intro h
        simp only [Except.error.injEq] at h
        exact step_fault_ne_out_of_fuel ins i s f hs h
      | ok p =>
        obtain ⟨i', s'⟩ := p
        rw [run_step c fuel i s ins i' s' hg hs]
        have := hfw i ins s i' s' hg hs
        exact ih i' s' (by omega)

/-- The sequence `[Jump(0)]` never leaves its loop. -/
theorem run_jump_zero (fuel : Nat) :
    ∀ s : stack, run [instruction.jump 0] fuel 0 s = .error fault.out_of_fuel := by
  induction fuel with
  | zero => intro s; rfl
  | succ fuel ih =>
    intro s
    rw [run_step [instruction.jump 0] fuel 0 s (instruction.jump 0) 0 s rfl rfl]
    exact ih s

/-- In code compiled from the empty sequence every successful turn of the
loop moves the index forward. -/
theorem compiled_step_forward (e : expression) (code : instructions) (s : symbols)
    (d d' : Int) (hc : compile e [] s d = .ok (code, d')) :
    ∀ i ins st i' st', code.get? i = some ins → step ins i st = .ok (i', st') → i < i' := by
  obtain ⟨seg, hseg, hcode⟩ := compile_ok e [] code s d d' hc
  rw [List.nil_append] at hcode
  subst hcode
  have hf := emit_forward e s d 0 code d' hseg
  intro i ins st i' st' hg hs
  rcases step_next ins i i' st st' hs with h | ⟨t, ht, h0, h⟩
  · omega
  · have := hf i ins t hg ht
    omega

/-! ## Simulation of code without conditions -/

theorem scan_of_mem (l : List (String × Int)) (n : String) (h : n ∈ l.map Prod.fst) :
    ∃ v, scan l n = some v := by
  induction l with
  | nil => simp at h
  | cons p l ih =>
    obtain ⟨w, x⟩ := p
    by_cases hw : w = n
    · exact ⟨x, by simp only [scan, hw, if_true]⟩
    · simp only [List.map_cons, List.mem_cons] at h
      rcases h with h | h
      · exact absurd h.symm hw
      · obtain ⟨v, hv⟩ := ih h
        exact ⟨v, by simp only [scan, hw, if_false, hv]⟩

theorem agrees_push (env : environment) (s : symbols) (st : stack) (x : Int)
    (h : agrees env s st) : agrees env s (st ++ [x]) := by
  intro n v hn
  obtain ⟨p, hp, h0, hlt, hg⟩ := h n v hn
  refine ⟨p, hp, h0, ?_, ?_⟩
  · rw [List.length_append]
    simp only [List.length_cons, List.length_nil]
    omega
  · rw [get?_append_left st [x] _ (by omega)]
    exact hg

theorem agrees_define (env : environment) (s : symbols) (st : stack) (w : String) (x : Int)
    (h : agrees env s st) :
    agrees ((w, x) :: env) ((w, (st.length : Int)) :: s) (st ++ [x]) := by
  intro n v hn
  by_cases hw : w = n
  · simp only [scan, hw, if_true, Option.some.injEq] at hn
    subst hn
    refine ⟨(st.length : Int), by simp only [scan, hw, if_true], by omega, ?_, ?_⟩
    · rw [List.length_append]
      simp only [List.length_cons, List.length_nil]
      omega
    · rw [Int.toNat_ofNat]
      exact get?_mid st [] x
  · simp only [scan, hw, if_false] at hn
    obtain ⟨p, hp, h0, hlt, hg⟩ := agrees_push env s st x h n v hn
    exact ⟨p, by simp only [scan, hw, if_false, hp], h0, hlt, hg⟩

theorem stack_pop_push (s : stack) (v : Int) : stack_pop (s ++ [v]) = .ok (v, s) := by
  simp [stack_pop]

theorem eraseIdx_mid {α : Type} (pre post : List α) (a : α) :
    (pre ++ a :: post).eraseIdx pre.length = pre ++ post := by
  induction pre with
  | nil => rfl
  | cons x pre ih => simp only [List.cons_append, List.length_cons, List.eraseIdx_cons_succ, ih]

/-- One turn of the loop on the instruction that follows `pre`. -/
theorem run_at (pre post : instructions) (ins : instruction) (fuel : Nat) (st : stack)
    (i' : Nat) (st' : stack) (hs : step ins pre.length st = .ok (i', st')) :
    run (pre ++ ins :: post) (fuel + 1) pre.length st = run (pre ++ ins :: post) fuel i' st' :=
  run_step _ fuel _ st ins i' st' (get?_mid pre post ins) hs

theorem step_add_push (i : Nat) (st : stack) (a b : Int) :
    step .add i (st ++ [a] ++ [b]) = .ok (i + 1, st ++ [int_add a b]) := by
  simp only [step, stack_pop_push, stack_push, int_add_comm b a]

theorem step_copy_of_get (i : Nat) (st : stack) (p v : Int) (h0 : 0 ≤ p)
    (hg : st.get? p.toNat = some v) : step (.copy p) i st = .ok (i + 1, st ++ [v]) := by
  have h1 : ¬ p < 0 := by omega
  simp only [step, h1, if_false, hg, stack_push]

theorem step_drop_below_top (i : Nat) (st : stack) (x y : Int) :
    step (.drop (st.length : Int)) i (st ++ [x] ++ [y]) = .ok (i + 1, st ++ [y]) := by
  have e : st ++ [x] ++ [y] = st ++ x :: [y] := by
    simp only [List.append_assoc, List.singleton_append]
  have hne : st ++ x :: [y] ≠ [] := by simp
  have h1 : ¬ ((st.length : Int) < 0) := by omega
  have h2 : (st.length : Int).toNat < (st ++ x :: [y]).length := by
    rw [Int.toNat_ofNat, List.length_append]
    simp only [List.length_cons, List.length_nil]
    omega
  rw [Int.toNat_ofNat] at h2
  rw [e]
  simp only [step, stack_drop, hne, h1, if_false, h2, if_true, Int.toNat_ofNat, eraseIdx_mid]

/-- The simulation: code emitted for an expression without conditions, run
on a stack that agrees with the environment, pushes the value that `walk`
computes and leaves the rest of the stack as it was. The emitted code does
not depend on the index at which it lands, and `compile` returns the entry
depth plus one. -/
theorem simulate_condition_free (e : expression) :
    ∀ (env : environment) (s : symbols) (d : Int) (st : stack),
      condition_free e = true → bound_in e (env.map Prod.fst) = true →
      (st.length : Int) = d → agrees env s st →
      ∃ seg r, walk e env = .ok r ∧ (∀ base, emit e s d base = .ok (seg, d + 1)) ∧
        ∀ (code pre post : instructions), code = pre ++ (seg ++ post) →
          ∀ fuel, run code (seg.length + fuel) pre.length st =
            run code fuel (pre.length + seg.length) (st ++ [r]) := by
  induction e with
  | literal v =>
    intro env s d st _ _ _ _
    refine ⟨[.load_literal v], v, rfl, fun _ => rfl, ?_⟩
    intro code pre post hcode fuel
    subst hcode
    show run _ (1 + fuel) _ _ = _
    rw [Nat.add_comm 1 fuel]
    exact run_at pre post (.load_literal v) fuel st _ _ rfl
  | word w =>
    intro env s d st _ hb hlen hag
    simp only [bound_in, decide_eq_true_eq] at hb
    obtain ⟨v, hv⟩ := scan_of_mem env w hb
    obtain ⟨p, hp, h0, hlt, hg⟩ := hag w v hv
    refine ⟨[.copy p], v, by simp only [walk, hv], fun _ => by simp only [emit, hp], ?_⟩
    intro code pre post hcode fuel
    subst hcode
    show run _ (1 + fuel) _ _ = _
    rw [Nat.add_comm 1 fuel]
    exact run_at pre post (.copy p) fuel st _ _ (step_copy_of_get _ st p v h0 hg)
  | addition left right ihl ihr =>
    intro env s d st hcf hb hlen hag
    simp only [condition_free, Bool.and_eq_true] at hcf
    simp only [bound_in, Bool.and_eq_true] at hb
    obtain ⟨cl, a, hwl, hel, hrl⟩ := ihl env s d st hcf.1 hb.1 hlen hag
    have hlen' : ((st ++ [a]).length : Int) = d + 1 := by
      rw [List.length_append]
      simp only [List.length_cons, List.length_nil]
      omega
    obtain ⟨cr, b, hwr, her, hrr⟩ :=
      ihr env s (d + 1) (st ++ [a]) hcf.2 hb.2 hlen' (agrees_push env s st a hag)
    refine ⟨cl ++ (cr ++ [.add]), int_add a b, by simp only [walk, hwl, hwr], ?_, ?_⟩
    · intro base
      have hd : d + 1 + 1 - 1 = d + 1 := by omega
      simp only [emit, hel base, her (base + cl.length), hd]
    · intro code pre post hcode fuel
      have h1 := hrl code pre (cr ++ (instruction.add :: post))
        (by rw [hcode]; simp only [List.append_assoc, List.singleton_append])
        (cr.length + (fuel + 1))
      have h2 := hrr code (pre ++ cl) (instruction.add :: post)
        (by rw [hcode]; simp only [List.append_assoc, List.singleton_append]) (fuel + 1)
      have e3 : code = (pre ++ cl ++ cr) ++ instruction.add :: post := by
        rw [hcode]; simp only [List.append_assoc, List.singleton_append]
      have h3 : run code (fuel + 1) (pre ++ cl ++ cr).length (st ++ [a] ++ [b]) =
          run code fuel ((pre ++ cl ++ cr).length + 1) (st ++ [int_add a b]) := by
        rw [e3]
        exact run_at _ post .add fuel _ _ _ (step_add_push _ st a b)
      have l : (cl ++ (cr ++ [instruction.add])).length + fuel =
          cl.length + (cr.length + (fuel + 1)) := by
        simp only [List.length_append, List.length_cons, List.length_nil]; omega
      have l2 : pre.length + (cl ++ (cr ++ [instruction.add])).length =
          pre.length + cl.length + cr.length + 1 := by
        simp only [List.length_append, List.length_cons, List.length_nil]; omega
      rw [List.length_append] at h2
      simp only [List.length_append] at h3
      rw [l, h1, h2, h3, l2]
  | definition w value context ihv ihc =>
    intro env s d st hcf hb hlen hag
    simp only [condition_free, Bool.and_eq_true] at hcf
    simp only [bound_in, Bool.and_eq_true] at hb
    obtain ⟨cv, x, hwv, hev, hrv⟩ := ihv env s d st hcf.1 hb.1 hlen hag
    have hlen' : ((st ++ [x]).length : Int) = d + 1 := by
      rw [List.length_append]
      simp only [List.length_cons, List.length_nil]
      omega
    have hslot : d + 1 - 1 = (st.length : Int) := by omega
    have hag' : agrees ((w, x) :: env) ((w, d + 1 - 1) :: s) (st ++ [x]) := by
      rw [hslot]
      exact agrees_define env s st w x hag
    obtain ⟨cb, y, hwb, heb, hrb⟩ :=
      ihc ((w, x) :: env) ((w, d + 1 - 1) :: s) (d + 1) (st ++ [x]) hcf.2
        (by simpa only [List.map_cons] using hb.2) hlen' hag'
    refine ⟨cv ++ (cb ++ [.drop (st.length : Int)]), y, by simp only [walk, hwv, hwb], ?_, ?_⟩
    · intro base
      have hd : d + 1 + 1 - 1 = d + 1 := by omega
      have hd2 : d + 1 + 1 - 2 = (st.length : Int) := by omega
      simp only [emit, hev base, heb (base + cv.length), hd, hd2]
    · intro code pre post hcode fuel
      have h1 := hrv code pre (cb ++ (instruction.drop (st.length : Int) :: post))
        (by rw [hcode]; simp only [List.append_assoc, List.singleton_append])
        (cb.length + (fuel + 1))
      have h2 := hrb code (pre ++ cv) (instruction.drop (st.length : Int) :: post)
        (by rw [hcode]; simp only [List.append_assoc, List.singleton_append]) (fuel + 1)
      have e3 : code = (pre ++ cv ++ cb) ++ instruction.drop (st.length : Int) :: post := by
        rw [hcode]; simp only [List.append_assoc, List.singleton_append]
      have h3 : run code (fuel + 1) (pre ++ cv ++ cb).length (st ++ [x] ++ [y]) =
          run code fuel ((pre ++ cv ++ cb).length + 1) (st ++ [y]) := by
        rw [e3]
        exact run_at _ post (.drop (st.length : Int)) fuel _ _ _
          (step_drop_below_top _ st x y)
      have l : (cv ++ (cb ++ [instruction.drop (st.length : Int)])).length + fuel =
          cv.length + (cb.length + (fuel + 1)) := by
        simp only [List.length_append, List.length_cons, List.length_nil]; omega
      have l2 : pre.length + (cv ++ (cb ++ [instruction.drop (st.length : Int)])).length =
          pre.length + cv.length + cb.length + 1 := by
        simp only [List.length_append, List.length_cons, List.length_nil]; omega
      rw [List.length_append] at h2
      simp only [List.length_append] at h3
      rw [l, h1, h2, h3, l2]
  | condition test yes no _ _ _ =>
    intro env s d st hcf
    simp only [condition_free] at hcf
    cases hcf

theorem agrees_nil (s : symbols) (st : stack) : agrees [] s st := by
  intro n v h
  simp only [scan] at h
  cases h

/-- A condition at the root whose three parts contain no condition and no
unbound reference: it compiles, and the run of its code from the empty stack
leaves exactly the value of `walk`. -/
theorem root_condition_run (test yes no : expression)
    (hct : condition_free test = true) (hcy : condition_free yes = true)
    (hcn : condition_free no = true)
    (hbt : bound_in test [] = true) (hby : bound_in yes [] = true)
    (hbn : bound_in no [] = true) :
    ∃ code r, compile (.condition test yes no) [] [] 0 = .ok (code, 0) ∧
      walk (.condition test yes no) [] = .ok r ∧
      ∀ fuel, run code (code.length + fuel) 0 [] = .ok [r] := by
  obtain ⟨ct, t, hwt, het, hrt⟩ :=
    simulate_condition_free test [] [] 0 [] hct hbt rfl (agrees_nil _ _)
  obtain ⟨cn, rn, hwn, hen, hrn⟩ :=
    simulate_condition_free no [] [] 0 [] hcn hbn rfl (agrees_nil _ _)
  obtain ⟨cy, ry, hwy, hey, hry⟩ :=
    simulate_condition_free yes [] [] 0 [] hcy hby rfl (agrees_nil _ _)
  obtain ⟨T, hT⟩ : ∃ T : Nat, T = 0 + ct.length + 1 + cn.length + 1 := ⟨_, rfl⟩
  obtain ⟨L, hL⟩ : ∃ L : Nat, L = T + cy.length := ⟨_, rfl⟩
  have hz : (0 : Int) + 1 - 1 = 0 := by decide
  have hemit : emit (.condition test yes no) [] 0 0 =
      .ok (ct ++ (.branch (T : Int) :: (cn ++ (.jump (L : Int) :: cy))), 0) := by
    simp only [emit, het 0, hz, hen _, hey _, if_true]
    rw [← hT, ← hL]
  generalize hcode : ct ++ (instruction.branch (T : Int) ::
    (cn ++ (instruction.jump (L : Int) :: cy))) = code at hemit
  have hcomp : compile (.condition test yes no) [] [] 0 = .ok (code, 0) := by
    rw [compile_eq_emit, List.length_nil, hemit]
    simp only [List.nil_append]
  have hlen : code.length = L := by
    rw [← hcode]
    simp only [List.length_append, List.length_cons]; omega
  have hend : ∀ fuel (st : stack), run code fuel L st = .ok st := by
    intro fuel st
    refine run_none code fuel L st ?_
    rw [List.get?_eq_getElem?]
    exact List.getElem?_eq_none (by omega)
  -- the test, then the branch
  have htest : ∀ fuel, run code (ct.length + fuel) 0 [] = run code fuel ct.length [t] := by
    intro fuel
    have h := hrt code [] (instruction.branch (T : Int) ::
      (cn ++ (instruction.jump (L : Int) :: cy))) (by rw [← hcode, List.nil_append]) fuel
    rw [List.length_nil, Nat.zero_add, List.nil_append] at h
    exact h
  by_cases h0 : t = 0
  · -- the `no` arm, then the jump
    subst h0
    refine ⟨code, rn, hcomp, by simp only [walk, hwt, ne_eq, not_true_eq_false, if_false, hwn],
      ?_⟩
    have hbr : ∀ fuel, run code (fuel + 1) ct.length [0] = run code fuel (ct.length + 1) [] := by
      intro fuel
      rw [← hcode]
      exact run_at ct _ _ fuel [0] _ _ (step_branch_zero _ _ [0] rfl)
    have harm : ∀ fuel, run code (cn.length + fuel) (ct.length + 1) [] =
        run code fuel (ct.length + 1 + cn.length) [rn] := by
      intro fuel
      have h := hrn code (ct ++ [instruction.branch (T : Int)])
        (instruction.jump (L : Int) :: cy)
        (by rw [← hcode]; simp only [List.append_assoc, List.singleton_append]) fuel
      rw [List.length_append, List.nil_append] at h
      exact h
    have hjmp : ∀ fuel, run code (fuel + 1) (ct.length + 1 + cn.length) [rn] =
        run code fuel L [rn] := by
      intro fuel
      have e : code = (ct ++ (instruction.branch (T : Int) :: cn)) ++
          (instruction.jump (L : Int) :: cy) := by
        rw [← hcode]; simp only [List.append_assoc, List.cons_append]
      have l : (ct ++ (instruction.branch (T : Int) :: cn)).length =
          ct.length + 1 + cn.length := by
        simp only [List.length_append, List.length_cons]; omega
      rw [e, ← l]
      exact run_at _ cy _ fuel [rn] _ _ (step_jump L _ [rn])
    intro fuel
    have hk : run code (ct.length + ((cn.length + (0 + 1)) + 1)) 0 [] = .ok [rn] := by
      rw [htest, hbr, harm, hjmp, hend]
    have e : code.length + fuel =
        (ct.length + ((cn.length + (0 + 1)) + 1)) + (cy.length + fuel) := by omega
    rw [e]
    exact run_mono code _ 0 [] [rn] hk _
  · -- the `yes` arm
    refine ⟨code, ry, hcomp, by simp only [walk, hwt, ne_eq, h0, not_false_eq_true, if_true, hwy],
      ?_⟩
    have hbr : ∀ fuel, run code (fuel + 1) ct.length [t] = run code fuel T [] := by
      intro fuel
      rw [← hcode]
      exact run_at ct _ _ fuel [t] _ _ (step_branch_nonzero T _ [t] t rfl h0)
    have harm : ∀ fuel, run code (cy.length + fuel) T [] = run code fuel L [ry] := by
      intro fuel
      have l : (ct ++ (instruction.branch (T : Int) ::
          (cn ++ [instruction.jump (L : Int)]))).length = T := by
        simp only [List.length_append, List.length_cons, List.length_nil]; omega
      have h := hry code (ct ++ (instruction.branch (T : Int) ::
          (cn ++ [instruction.jump (L : Int)]))) []
        (by rw [← hcode]; simp only [List.append_assoc, List.singleton_append,
          List.cons_append, List.append_nil, List.nil_append]) fuel
      rw [l, ← hL, List.nil_append] at h
      exact h
    intro fuel
    have h3 := harm 0
    rw [Nat.add_zero] at h3
    have hk : run code (ct.length + (cy.length + 1)) 0 [] = .ok [ry] := by
      rw [htest, hbr, h3, hend]
    have e : code.length + fuel =
        (ct.length + (cy.length + 1)) + (cn.length + 1 + fuel) := by omega
    rw [e]
    exact run_mono code _ 0 [] [ry] hk _

/-! ## Heights of the stack during a run of compiled code -/

theorem exists_push (st : stack) (h : 1 ≤ st.length) : ∃ init v, st = init ++ [v] := by
  have hne : st ≠ [] := by
    intro h0
    rw [h0] at h
    exact Nat.not_succ_le_zero 0 h
  exact ⟨st.dropLast, st.getLast hne, (List.dropLast_append_getLast hne).symm⟩

theorem step_copy_total (p : Int) (i : Nat) (st : stack) :
    step (.copy p) i st = .error fault.undefined_behaviour ∨
      ∃ v, step (.copy p) i st = .ok (i + 1, st ++ [v]) := by
  simp only [step, stack_push]
  split
  · exact Or.inl rfl
  · split
    · exact Or.inl rfl
    · rename_i v _
      exact Or.inr ⟨v, rfl⟩

theorem step_add_of_height (i : Nat) (st : stack) (h : 2 ≤ st.length) :
    ∃ st', step .add i st = .ok (i + 1, st') ∧ st'.length + 1 = st.length := by
  obtain ⟨s1, b, rfl⟩ := exists_push st (by omega)
  have h1 : 1 ≤ s1.length := by
    rw [List.length_append] at h
    simp only [List.length_cons, List.length_nil] at h
    omega
  obtain ⟨s2, a, rfl⟩ := exists_push s1 h1
  refine ⟨s2 ++ [int_add a b], step_add_push i s2 a b, ?_⟩
  simp only [List.length_append, List.length_cons, List.length_nil]

theorem stack_drop_length (st s' : stack) (p : Int) (h : stack_drop st p = .ok s') :
    s'.length + 1 = st.length := by
  unfold stack_drop at h
  split at h
  · cases h
  · rename_i hne
    have hpos : 1 ≤ st.length := by
      cases st with
      | nil => exact absurd rfl hne
      | cons x xs => simp only [List.length_cons]; omega
    split at h
    · cases h
    · split at h
      · rename_i hlt
        simp only [Except.ok.injEq] at h
        rw [← h, List.length_eraseIdx]
        simp only [hlt, if_true]
        omega
      · simp only [Except.ok.injEq] at h
        rw [← h, List.length_dropLast]
        omega

theorem step_drop_of_height (p : Int) (i : Nat) (st : stack) :
    step (.drop p) i st = .error fault.undefined_behaviour ∨
      ∃ st', step (.drop p) i st = .ok (i + 1, st') ∧ st'.length + 1 = st.length := by
  cases hsd : stack_drop st p with
  | error f =>
    have hf := stack_drop_fault st p f hsd
    subst hf
    exact Or.inl (by simp only [step, hsd])
  | ok s' =>
    exact Or.inr ⟨s', by simp only [step, hsd], stack_drop_length st s' p hsd⟩

theorem step_branch_of_height (T i : Nat) (st : stack) (h : 1 ≤ st.length) :
    ∃ st', st'.length + 1 = st.length ∧
      (step (.branch (T : Int)) i st = .ok (T, st') ∨
        step (.branch (T : Int)) i st = .ok (i + 1, st')) := by
  obtain ⟨s1, v, rfl⟩ := exists_push st h
  refine ⟨s1, by simp only [List.length_append, List.length_cons, List.length_nil], ?_⟩
  have hl : (s1 ++ [v]).getLast? = some v := by simp
  have hd : (s1 ++ [v]).dropLast = s1 := by simp
  by_cases hv : v = 0
  · subst hv
    have := step_branch_zero (T : Int) i (s1 ++ [0]) hl
    rw [hd] at this
    exact Or.inr this
  · have := step_branch_nonzero T i (s1 ++ [v]) v hl hv
    rw [hd] at this
    exact Or.inl this

theorem run_at_code (code pre post : instructions) (ins : instruction) (n : Nat)
    (hcode : code = pre ++ ins :: post) (hn : pre.length = n) (fuel : Nat) (st : stack)
    (i' : Nat) (st' : stack) (hs : step ins n st = .ok (i', st')) :
    run code (fuel + 1) n st = run code fuel i' st' := by
  subst hcode
  subst hn
  exact run_at pre post ins fuel st i' st' hs

theorem run_at_code_fault (code pre post : instructions) (ins : instruction) (n : Nat)
    (hcode : code = pre ++ ins :: post) (hn : pre.length = n) (fuel : Nat) (st : stack)
    (f : fault) (hs : step ins n st = .error f) :
    run code (fuel + 1) n st = .error f := by
  subst hcode
  subst hn
  exact run_fault _ fuel _ st ins f (get?_mid pre post ins) hs

/-- The run of the code emitted for an expression, from the index where the
code starts: within some number `k` of turns it either reaches the index
after the code with exactly one more value on the stack, or leaves the
defined behaviour of the machine; it never pops an empty stack. -/
theorem run_heights (e : expression) :
    ∀ (s : symbols) (d : Int) (base : Nat) (seg : instructions) (d' : Int),
      emit e s d base = .ok (seg, d') →
      ∀ (code pre post : instructions) (st : stack),
        code = pre ++ (seg ++ post) → pre.length = base →
        ∃ k,
          (∃ st', st'.length = st.length + 1 ∧
            ∀ fuel, run code (k + fuel) base st = run code fuel (base + seg.length) st') ∨
          (∀ fuel, run code (k + fuel) base st = .error fault.undefined_behaviour) := by
  induction e with
  | literal v =>
    intro s d base seg d' h code pre post st hcode hpre
    simp only [emit, Except.ok.injEq, Prod.mk.injEq] at h
    obtain ⟨hseg, _⟩ := h
    subst hseg
    refine ⟨1, Or.inl ⟨st ++ [v], by simp, fun fuel => ?_⟩⟩
    rw [Nat.add_comm 1 fuel]
    exact run_at_code code pre post (.load_literal v) base hcode hpre fuel st _ _ rfl
  | word w =>
    intro s d base seg d' h code pre post st hcode hpre
    simp only [emit] at h
    cases hs : scan s w with
    | none => rw [hs] at h; cases h
    | some p =>
      rw [hs] at h
      simp only [Except.ok.injEq, Prod.mk.injEq] at h
      obtain ⟨hseg, _⟩ := h
      subst hseg
      rcases step_copy_total p base st with herr | ⟨v, hok⟩
      · refine ⟨1, Or.inr fun fuel => ?_⟩
        rw [Nat.add_comm 1 fuel]
        exact run_at_code_fault code pre post (.copy p) base hcode hpre fuel st _ herr
      · refine ⟨1, Or.inl ⟨st ++ [v], by simp, fun fuel => ?_⟩⟩
        rw [Nat.add_comm 1 fuel]
        exact run_at_code code pre post (.copy p) base hcode hpre fuel st _ _ hok
  | addition left right ihl ihr =>
    intro s d base seg d' h code pre post st hcode hpre
    simp only [emit] at h
    cases hl : emit left s d base with
    | error f => rw [hl] at h; cases h
    | ok p =>
      obtain ⟨cl, d1⟩ := p
      rw [hl] at h
      simp only [] at h
      cases hr : emit right s d1 (base + cl.length) with
      | error f => rw [hr] at h; cases h
      | ok q =>
        obtain ⟨cr, d2⟩ := q
        rw [hr] at h
        simp only [Except.ok.injEq, Prod.mk.injEq] at h
        obtain ⟨hseg, _⟩ := h
        subst hseg
        obtain ⟨k1, h1⟩ := ihl s d base cl d1 hl code pre (cr ++ (instruction.add :: post)) st
          (by rw [hcode]; simp only [List.append_assoc, List.singleton_append]) hpre
        rcases h1 with ⟨st1, hlen1, hrun1⟩ | hub
        · obtain ⟨k2, h2⟩ := ihr s d1 (base + cl.length) cr d2 hr code (pre ++ cl)
            (instruction.add :: post) st1
            (by rw [hcode]; simp only [List.append_assoc, List.singleton_append])
            (by rw [List.length_append, hpre])
          rcases h2 with ⟨st2, hlen2, hrun2⟩ | hub2
          · obtain ⟨st3, hstep, hlen3⟩ :=
              step_add_of_height (base + cl.length + cr.length) st2 (by omega)
            have hrun3 : ∀ fuel, run code (fuel + 1) (base + cl.length + cr.length) st2 =
                run code fuel (base + cl.length + cr.length + 1) st3 := fun fuel =>
              run_at_code code (pre ++ cl ++ cr) post .add _
                (by rw [hcode]; simp only [List.append_assoc, List.singleton_append])
                (by simp only [List.length_append, hpre]) fuel st2 _ _ hstep
            refine ⟨k1 + (k2 + 1), Or.inl ⟨st3, by omega, fun fuel => ?_⟩⟩
            have e : k1 + (k2 + 1) + fuel = k1 + (k2 + (fuel + 1)) := by omega
            have l : base + (cl ++ (cr ++ [instruction.add])).length =
                base + cl.length + cr.length + 1 := by
              simp only [List.length_append, List.length_cons, List.length_nil]; omega
            rw [e, hrun1, hrun2, hrun3, l]
          · refine ⟨k1 + k2, Or.inr fun fuel => ?_⟩
            rw [Nat.add_assoc, hrun1, hub2]
        · exact ⟨k1, Or.inr hub⟩
  | definition w value context ihv ihc =>
    intro s d base seg d' h code pre post st hcode hpre
    simp only [emit] at h
    cases hl : emit value s d base with
    | error f => rw [hl] at h; cases h
    | ok p =>
      obtain ⟨cl, d1⟩ := p
      rw [hl] at h
      simp only [] at h
      cases hr : emit context ((w, d1 - 1) :: s) d1 (base + cl.length) with
      | error f => rw [hr] at h; cases h
      | ok q =>
        obtain ⟨cr, d2⟩ := q
        rw [hr] at h
        simp only [Except.ok.injEq, Prod.mk.injEq] at h
        obtain ⟨hseg, _⟩ := h
        subst hseg
        obtain ⟨k1, h1⟩ := ihv s d base cl d1 hl code pre
          (cr ++ (instruction.drop (d2 - 2) :: post)) st
          (by rw [hcode]; simp only [List.append_assoc, List.singleton_append]) hpre
        rcases h1 with ⟨st1, hlen1, hrun1⟩ | hub
        · obtain ⟨k2, h2⟩ := ihc ((w, d1 - 1) :: s) d1 (base + cl.length) cr d2 hr code
            (pre ++ cl) (instruction.drop (d2 - 2) :: post) st1
            (by rw [hcode]; simp only [List.append_assoc, List.singleton_append])
            (by rw [List.length_append, hpre])
          rcases h2 with ⟨st2, hlen2, hrun2⟩ | hub2
          · have hc3 : code = (pre ++ cl ++ cr) ++ instruction.drop (d2 - 2) :: post := by
              rw [hcode]; simp only [List.append_assoc, List.singleton_append]
            have hl3 : (pre ++ cl ++ cr).length = base + cl.length + cr.length := by
              simp only [List.length_append, hpre]
            have e : ∀ fuel, k1 + (k2 + 1) + fuel = k1 + (k2 + (fuel + 1)) := by
              intro fuel; omega
            rcases step_drop_of_height (d2 - 2) (base + cl.length + cr.length) st2 with
              herr | ⟨st3, hstep, hlen3⟩
            · refine ⟨k1 + (k2 + 1), Or.inr fun fuel => ?_⟩
              rw [e, hrun1, hrun2]
              exact run_at_code_fault code _ post _ _ hc3 hl3 fuel st2 _ herr
            · refine ⟨k1 + (k2 + 1), Or.inl ⟨st3, by omega, fun fuel => ?_⟩⟩
              have l : base + (cl ++ (cr ++ [instruction.drop (d2 - 2)])).length =
                  base + cl.length + cr.length + 1 := by
                simp only [List.length_append, List.length_cons, List.length_nil]; omega
              rw [e, hrun1, hrun2, l]
              exact run_at_code code _ post _ _ hc3 hl3 fuel st2 _ _ hstep
          · refine ⟨k1 + k2, Or.inr fun fuel => ?_⟩
            rw [Nat.add_assoc, hrun1, hub2]
        · exact ⟨k1, Or.inr hub⟩
  | condition test yes no iht ihy ihn =>
    intro s d base seg d' h code pre post st hcode hpre
    simp only [emit] at h
    cases ht : emit test s d base with
    | error f => rw [ht] at h; cases h
    | ok p =>
      obtain ⟨ct, d1⟩ := p
      rw [ht] at h
      simp only [] at h
      cases hn : emit no s (d1 - 1) (base + ct.length + 1) with
      | error f => rw [hn] at h; cases h
      | ok q =>
        obtain ⟨cn, dn⟩ := q
        rw [hn] at h
        simp only [] at h
        cases hy : emit yes s (d1 - 1) (base + ct.length + 1 + cn.length + 1) with
        | error f => rw [hy] at h; cases h
        | ok r =>
          obtain ⟨cy, dy⟩ := r
          rw [hy] at h
          simp only [] at h
          by_cases hd : dy = dn
          · simp only [hd, if_true, Except.ok.injEq, Prod.mk.injEq] at h
            obtain ⟨hseg, _⟩ := h
            obtain ⟨T, hT⟩ : ∃ T : Nat, T = base + ct.length + 1 + cn.length + 1 := ⟨_, rfl⟩
            obtain ⟨L, hL⟩ : ∃ L : Nat, L = T + cy.length := ⟨_, rfl⟩
            rw [← hT] at hy hseg
            rw [← hL] at hseg
            subst hseg
            have hend : base + (ct ++ instruction.branch (T : Int) ::
                (cn ++ instruction.jump (L : Int) :: cy)).length = L := by
              simp only [List.length_append, List.length_cons]; omega
            rw [hend]
            obtain ⟨k1, h1⟩ := iht s d base ct d1 ht code pre
              (instruction.branch (T : Int) :: (cn ++ instruction.jump (L : Int) :: cy) ++ post)
              st (by rw [hcode]; simp only [List.append_assoc, List.cons_append]) hpre
            rcases h1 with ⟨st1, hlen1, hrun1⟩ | hub
            · obtain ⟨st2, hlen2, hbr⟩ := step_branch_of_height T (base + ct.length) st1
                (by omega)
              have hcB : code = (pre ++ ct) ++ instruction.branch (T : Int) ::
                  (cn ++ (instruction.jump (L : Int) :: (cy ++ post))) := by
                rw [hcode]; simp only [List.append_assoc, List.cons_append]
              have hlB : (pre ++ ct).length = base + ct.length := by
                rw [List.length_append, hpre]
              rcases hbr with hbr | hbr
              · -- the `yes` arm
                have hrunB : ∀ fuel, run code (fuel + 1) (base + ct.length) st1 =
                    run code fuel T st2 := fun fuel =>
                  run_at_code code _ _ _ _ hcB hlB fuel st1 _ _ hbr
                obtain ⟨k2, h2⟩ := ihy s (d1 - 1) T cy dy hy code
                  (pre ++ ct ++ instruction.branch (T : Int) ::
                    (cn ++ [instruction.jump (L : Int)])) post st2
                  (by rw [hcode]; simp only [List.append_assoc, List.cons_append,
                    List.singleton_append, List.nil_append])
                  (by simp only [List.length_append, List.length_cons, List.length_nil]
                      omega)
                rw [← hL] at h2
                rcases h2 with ⟨st3, hlen3, hrun3⟩ | hub2
                · refine ⟨k1 + (k2 + 1), Or.inl ⟨st3, by omega, fun fuel => ?_⟩⟩
                  have e : k1 + (k2 + 1) + fuel = k1 + ((k2 + fuel) + 1) := by omega
                  rw [e, hrun1, hrunB, hrun3]
                · refine ⟨k1 + (k2 + 1), Or.inr fun fuel => ?_⟩
                  have e : k1 + (k2 + 1) + fuel = k1 + ((k2 + fuel) + 1) := by omega
                  rw [e, hrun1, hrunB, hub2]
              · -- the `no` arm, then the jump
                have hrunB : ∀ fuel, run code (fuel + 1) (base + ct.length) st1 =
                    run code fuel (base + ct.length + 1) st2 := fun fuel =>
                  run_at_code code _ _ _ _ hcB hlB fuel st1 _ _ hbr
                obtain ⟨k2, h2⟩ := ihn s (d1 - 1) (base + ct.length + 1) cn dn hn code
                  (pre ++ ct ++ [instruction.branch (T : Int)])
                  (instruction.jump (L : Int) :: (cy ++ post)) st2
                  (by rw [hcode]; simp only [List.append_assoc, List.cons_append,
                    List.singleton_append, List.nil_append])
                  (by simp only [List.length_append, List.length_cons, List.length_nil]
                      omega)
                rcases h2 with ⟨st3, hlen3, hrun3⟩ | hub2
                · have hrunJ : ∀ fuel,
                      run code (fuel + 1) (base + ct.length + 1 + cn.length) st3 =
                        run code fuel L st3 := fun fuel =>
                    run_at_code code (pre ++ ct ++ instruction.branch (T : Int) :: cn)
                      (cy ++ post) (instruction.jump (L : Int)) _
                      (by rw [hcode]; simp only [List.append_assoc, List.cons_append])
                      (by simp only [List.length_append, List.length_cons]
                          omega) fuel st3 _ _ (step_jump L _ st3)
                  refine ⟨k1 + (k2 + 2), Or.inl ⟨st3, by omega, fun fuel => ?_⟩⟩
                  have e : k1 + (k2 + 2) + fuel = k1 + ((k2 + (fuel + 1)) + 1) := by omega
                  rw [e, hrun1, hrunB, hrun3, hrunJ]
                · refine ⟨k1 + (k2 + 1), Or.inr fun fuel => ?_⟩
                  have e : k1 + (k2 + 1) + fuel = k1 + ((k2 + fuel) + 1) := by omega
                  rw [e, hrun1, hrunB, hub2]
            · exact ⟨k1, Or.inr hub⟩
          · simp only [hd, if_false] at h
            cases h

/-- A loop that failed within a budget, other than for lack of budget, fails
the same way within a larger one. -/
theorem run_mono_fault (c : instructions) (fuel : Nat) :
    ∀ (i : Nat) (s : stack) (f : fault), run c fuel i s = .error f → f ≠ fault.out_of_fuel →
      ∀ k, run c (fuel + k) i s = .error f := by
  induction fuel with
  | zero =>
    intro i s f h hf k
    cases hg : c.get? i with
    | none => rw [run_none c _ i s hg] at h; cases h
    | some ins =>
      rw [run_zero_some c i s ins hg] at h
      simp only [Except.error.injEq] at h
      exact absurd h.symm hf
  | succ fuel ih =>
    intro i s f h hf k
    rw [Nat.add_right_comm]
    cases hg : c.get? i with
    | none => rw [run_none c _ i s hg] at h; cases h
    | some ins =>
      cases hs : step ins i s with
      | error f' =>
        rw [run_fault c fuel i s ins f' hg hs] at h
        rw [run_fault c _ i s ins f' hg hs]
        exact h
      | ok p =>
        obtain ⟨i', s1⟩ := p
        rw [run_step c _ i s ins i' s1 hg hs] at h ⊢
        exact ih i' s1 f h hf k

/-- A fault of an instruction that the instrumented loop executes is the
outcome of the loop. -/
theorem run_of_trace_fault (c : instructions) (fuel : Nat) :
    ∀ (i0 : Nat) (s0 : stack) (i : Nat) (st : stack) (ins : instruction) (f : fault),
      (i, st) ∈ trace c fuel i0 s0 → c.get? i = some ins → step ins i st = .error f →
        run c fuel i0 s0 = .error f := by
  induction fuel with
  | zero =>
    intro i0 s0 i st ins f hmem
    simp only [trace] at hmem
    exact absurd hmem (List.not_mem_nil _)
  | succ fuel ih =>
    intro i0 s0 i st ins f hmem hg hs
    cases hg0 : c.get? i0 with
    | none =>
      rw [trace_none c _ i0 s0 hg0] at hmem
      exact absurd hmem (List.not_mem_nil _)
    | some ins0 =>
      cases hs0 : step ins0 i0 s0 with
      | error f0 =>
        rw [trace_fault c fuel i0 s0 ins0 f0 hg0 hs0, List.mem_singleton] at hmem
        simp only [Prod.mk.injEq] at hmem
        obtain ⟨h1, h2⟩ := hmem
        rw [h1] at hg hs
        rw [h2] at hs
        rw [hg0] at hg
        simp only [Option.some.injEq] at hg
        rw [← hg] at hs
        have hf := hs.symm.trans hs0
        simp only [Except.error.injEq] at hf
        rw [run_fault c fuel i0 s0 ins0 f0 hg0 hs0, hf]
      | ok p =>
        obtain ⟨i1, s1⟩ := p
        rw [trace_step c fuel i0 s0 ins0 i1 s1 hg0 hs0] at hmem
        rw [run_step c fuel i0 s0 ins0 i1 s1 hg0 hs0]
        rcases List.mem_cons.mp hmem with hm | hm
        · simp only [Prod.mk.injEq] at hm
          obtain ⟨h1, h2⟩ := hm
          rw [h1] at hg hs
          rw [h2] at hs
          rw [hg0] at hg
          simp only [Option.some.injEq] at hg
          rw [← hg, hs0] at hs
          cases hs
        · exact ih i1 s1 i st ins f hm hg hs

/-- The run of a compiled program from the empty stack: within some number
of turns it ends with exactly one value on the stack, or it leaves the defined
behaviour of the machine. -/
theorem compiled_run_outcome (e : expression) (code : instructions) (depth : Int)
    (hc : compile e [] [] 0 = .ok (code, depth)) :
    ∃ k, (∃ v, ∀ fuel, run code (k + fuel) 0 [] = .ok [v]) ∨
      (∀ fuel, run code (k + fuel) 0 [] = .error fault.undefined_behaviour) := by
  obtain ⟨seg, hseg, hcode⟩ := compile_ok e [] code [] 0 depth hc
  rw [List.nil_append] at hcode
  subst hcode
  obtain ⟨k, h⟩ := run_heights e [] 0 0 code depth hseg code [] [] []
    (by rw [List.append_nil, List.nil_append]) rfl
  refine ⟨k, ?_⟩
  rcases h with ⟨st', hlen, hrun⟩ | hub
  · left
    obtain ⟨v, hv⟩ : ∃ v, st' = [v] := by
      cases st' with
      | nil => simp at hlen
      | cons v rest =>
        cases rest with
        | nil => exact ⟨v, rfl⟩
        | cons w rest => simp at hlen
    subst hv
    refine ⟨v, fun fuel => ?_⟩
    rw [hrun fuel, Nat.zero_add]
    exact run_none code fuel code.length [v] (by rw [List.get?_eq_getElem?]; simp)
  · exact Or.inr hub

/-! ## The properties of the specification -/

/-- C1, evaluated at the failing input: on
`Addition(Literal(100), Definition("y", Condition(Literal(1), Literal(2), Literal(3)), Literal(7)))`,
which has no unbound reference, `walk` returns 107, `compile` succeeds with
the code shown and returned depth 0, and `interpret` returns 9 on that code
for every budget of at least 9 steps. -/
theorem C1_pipelines_disagree :
    walk disagreeing_program [] = .ok 107 ∧
    compile disagreeing_program [] [] 0 =
      .ok ([.load_literal 100, .load_literal 1, .branch 5, .load_literal 3, .jump 6,
            .load_literal 2, .load_literal 7, .drop 0, .add], 0) ∧
    ∀ fuel, compile_and_interpret disagreeing_program (9 + fuel) = .ok 9 := by
  refine ⟨rfl, rfl, fun fuel => ?_⟩
  have hc : compile disagreeing_program [] [] 0 =
      .ok ([.load_literal 100, .load_literal 1, .branch 5, .load_literal 3, .jump 6,
            .load_literal 2, .load_literal 7, .drop 0, .add], 0) := rfl
  unfold compile_and_interpret
  rw [hc]
  refine interpret_mono _ _ 9 9 ?_ fuel
  rfl

/-- C2: for all integers `t`, `a`, `b`, on
`Condition(Literal(t), Literal(a), Literal(b))` the evaluator (empty
environment) and the machine on the compiled code (empty sequence, empty
symbol table, depth 0, empty stack, any budget of at least 4 steps) both
return `a` when `t` is non-zero and `b` when `t` is zero; Scenario A,
`Condition(Literal(0), Literal(2), Literal(3))`, yields 3 in both. -/
theorem C2_condition_on_literals (t a b : Int) :
    walk (.condition (.literal t) (.literal a) (.literal b)) [] =
        .ok (if t ≠ 0 then a else b) ∧
    compile (.condition (.literal t) (.literal a) (.literal b)) [] [] 0 =
        .ok ([.load_literal t, .branch 4, .load_literal b, .jump 5, .load_literal a], 0) ∧
    (∀ fuel, compile_and_interpret (.condition (.literal t) (.literal a) (.literal b))
        (4 + fuel) = .ok (if t ≠ 0 then a else b)) ∧
    walk (.condition (.literal 0) (.literal 2) (.literal 3)) [] = .ok 3 ∧
    (∀ fuel, compile_and_interpret (.condition (.literal 0) (.literal 2) (.literal 3))
        (4 + fuel) = .ok 3) := by
  have hc : ∀ t a b : Int,
      compile (.condition (.literal t) (.literal a) (.literal b)) [] [] 0 =
        .ok ([.load_literal t, .branch 4, .load_literal b, .jump 5, .load_literal a], 0) := by
    intro t a b
    simp [compile, push_instruction, patch_branch, patch_jump]
  have hm : ∀ (t a b : Int) (fuel : Nat),
      compile_and_interpret (.condition (.literal t) (.literal a) (.literal b))
        (4 + fuel) = .ok (if t ≠ 0 then a else b) := by
    intro t a b fuel
    unfold compile_and_interpret
    rw [hc]
    refine interpret_mono _ _ 4 _ ?_ fuel
    by_cases h : t = 0
    · subst h
      simp [interpret, run, step, stack_pop, stack_push, goto]
    · simp [interpret, run, step, stack_pop, stack_push, goto, h]
  refine ⟨?_, hc t a b, hm t a b, rfl, ?_⟩
  · simp only [walk]
    split <;> rfl
  · intro fuel
    simpa using hm 0 2 3 fuel

/-- C3: for every name `n` and all integers `v`, `k`, on
`Definition(n, Literal(v), Addition(Literal(k), Reference(n)))` the evaluator
(empty environment) and the machine on the compiled code (empty sequence,
empty symbol table, depth 0, empty stack, any budget of at least 5 steps)
both return the `int` sum `k + v` (`int_add k v`, the mathematical sum
whenever that fits in 32 bits, see `int_add_exact`); Scenario B,
`Definition("five", Literal(5), Addition(Literal(4), Reference("five")))`,
yields 9 in both. -/
theorem C3_definition_used_in_addition (n : String) (v k : Int) :
    walk (.definition n (.literal v) (.addition (.literal k) (.word n))) [] =
        .ok (int_add k v) ∧
    compile (.definition n (.literal v) (.addition (.literal k) (.word n))) [] [] 0 =
        .ok ([.load_literal v, .load_literal k, .copy 0, .add, .drop 0], 1) ∧
    (∀ fuel, compile_and_interpret
        (.definition n (.literal v) (.addition (.literal k) (.word n))) (5 + fuel) =
        .ok (int_add k v)) ∧
    walk (.definition "five" (.literal 5) (.addition (.literal 4) (.word "five"))) [] =
        .ok 9 ∧
    (∀ fuel, compile_and_interpret
        (.definition "five" (.literal 5) (.addition (.literal 4) (.word "five")))
        (5 + fuel) = .ok 9) := by
  have hc : ∀ (n : String) (v k : Int),
      compile (.definition n (.literal v) (.addition (.literal k) (.word n))) [] [] 0 =
        .ok ([.load_literal v, .load_literal k, .copy 0, .add, .drop 0], 1) := by
    intro n v k
    simp [compile, push_instruction, scan]
  have hm : ∀ (n : String) (v k : Int) (fuel : Nat), compile_and_interpret
        (.definition n (.literal v) (.addition (.literal k) (.word n))) (5 + fuel) =
        .ok (int_add k v) := by
    intro n v k fuel
    unfold compile_and_interpret
    rw [hc]
    refine interpret_mono _ _ 5 _ ?_ fuel
    simp [interpret, run, step, stack_pop, stack_push, stack_drop, int_add_comm v k]
  refine ⟨?_, hc n v k, hm n v k, rfl, ?_⟩
  · simp [walk, scan]
  · intro fuel
    have h := hm "five" 5 4 fuel
    have e : int_add 4 5 = 9 := by decide
    rw [e] at h
    exact h

/-- C4: for every name `n` and all integers `a`, `b`, in both pipelines
(evaluator with the empty environment; compiled code of the empty sequence,
empty symbol table and depth 0, run from the empty stack with any budget of
at least 7 steps) `Definition(n, Literal(a), Definition(n, Literal(b), Reference(n)))`
yields `b`, and
`Definition(n, Literal(a), Addition(Definition(n, Literal(b), Reference(n)), Reference(n)))`
yields the `int` sum `b + a`: the reference after the inner definition still
sees the outer value. Scenario C,
`Definition("x", Literal(1), Definition("x", Literal(2), Reference("x")))`, yields 2. -/
theorem C4_shadowing (n : String) (a b : Int) :
    walk (.definition n (.literal a) (.definition n (.literal b) (.word n))) [] = .ok b ∧
    (∀ fuel, compile_and_interpret
        (.definition n (.literal a) (.definition n (.literal b) (.word n))) (7 + fuel) =
        .ok b) ∧
    walk (.definition n (.literal a)
        (.addition (.definition n (.literal b) (.word n)) (.word n))) [] =
        .ok (int_add b a) ∧
    (∀ fuel, compile_and_interpret (.definition n (.literal a)
        (.addition (.definition n (.literal b) (.word n)) (.word n))) (7 + fuel) =
        .ok (int_add b a)) ∧
    walk (.definition "x" (.literal 1) (.definition "x" (.literal 2) (.word "x"))) [] =
        .ok 2 ∧
    (∀ fuel, compile_and_interpret
        (.definition "x" (.literal 1) (.definition "x" (.literal 2) (.word "x")))
        (7 + fuel) = .ok 2) := by
  have h1 : ∀ (n : String) (a b : Int) (fuel : Nat), compile_and_interpret
        (.definition n (.literal a) (.definition n (.literal b) (.word n))) (7 + fuel) =
        .ok b := by
    intro n a b fuel
    have hc : compile (.definition n (.literal a) (.definition n (.literal b) (.word n)))
        [] [] 0 = .ok ([.load_literal a, .load_literal b, .copy 1, .drop 1, .drop 0], 1) := by
      simp [compile, push_instruction, scan]
    unfold compile_and_interpret
    rw [hc]
    refine interpret_mono _ _ 7 _ ?_ fuel
    simp [interpret, run, step, stack_pop, stack_push, stack_drop]
  have h2 : ∀ fuel, compile_and_interpret (.definition n (.literal a)
        (.addition (.definition n (.literal b) (.word n)) (.word n))) (7 + fuel) =
        .ok (int_add b a) := by
    intro fuel
    have hc : compile (.definition n (.literal a)
        (.addition (.definition n (.literal b) (.word n)) (.word n))) [] [] 0 =
        .ok ([.load_literal a, .load_literal b, .copy 1, .drop 1, .copy 0, .add, .drop 0],
          1) := by
      simp [compile, push_instruction, scan]
    unfold compile_and_interpret
    rw [hc]
    refine interpret_mono _ _ 7 _ ?_ fuel
    simp [interpret, run, step, stack_pop, stack_push, stack_drop, int_add_comm a b]
  refine ⟨?_, h1 n a b, ?_, h2, rfl, h1 "x" 1 2⟩
  · simp [walk, scan]
  · simp [walk, scan]

/-- C5: for all integers `a`, `b`, compiling `Addition(Literal(a), Literal(b))`
from the empty symbol table at depth 0 into the empty sequence gives exactly
`[LoadLiteral(a), LoadLiteral(b), Add]`, and `interpret` on that sequence from
the empty stack returns the `int` sum `a + b` for any budget of at least 3
steps; Scenario D, `Addition(Literal(1), Literal(2))`, compiles to
`[LoadLiteral(1), LoadLiteral(2), Add]` and runs to 3. -/
theorem C5_code_of_addition (a b : Int) :
    compile (.addition (.literal a) (.literal b)) [] [] 0 =
        .ok ([.load_literal a, .load_literal b, .add], 1) ∧
    (∀ fuel, interpret [.load_literal a, .load_literal b, .add] [] (3 + fuel) =
        .ok (int_add a b)) ∧
    compile (.addition (.literal 1) (.literal 2)) [] [] 0 =
        .ok ([.load_literal 1, .load_literal 2, .add], 1) ∧
    (∀ fuel, interpret [.load_literal 1, .load_literal 2, .add] [] (3 + fuel) = .ok 3) := by
  have hm : ∀ (a b : Int) (fuel : Nat),
      interpret [.load_literal a, .load_literal b, .add] [] (3 + fuel) =
        .ok (int_add a b) := by
    intro a b fuel
    refine interpret_mono _ _ 3 _ ?_ fuel
    simp [interpret, run, step, stack_pop, stack_push, int_add_comm b a]
  refine ⟨rfl, hm a b, rfl, ?_⟩
  intro fuel
  have h := hm 1 2 fuel
  have e : int_add 1 2 = 3 := by decide
  rw [e] at h
  exact h

/-- C6: a definition is a non-recursive let. `walk(Definition(n, v, b), env)`
evaluates `v` in `env`, without the new frame, and then is
`walk(b, (n, walk(v, env)) :: env)`; so for `v = Reference(n)` the value is
the outer binding of `n` when `env` has one, and the scan runs off the end of
`env` (no integer is returned) when it has none. `compile` does the same: `v`
is compiled against the symbol table `s` passed in, and only the body sees
the frame `(n, slot)` of the definition; so for `v = Reference(n)` the
instruction emitted is `Copy` of the outer position of `n` in `s`, and with
no frame named `n` in `s` the compilation fails. -/
theorem C6_non_recursive_let (n : String) (v b : expression) (env : environment)
    (instructs : instructions) (s : symbols) (d : Int) :
    walk (.definition n v b) env =
      (match walk v env with
       | .error f => .error f
       | .ok x => walk b ((n, x) :: env)) ∧
    walk (.definition n (.word n) b) env =
      (match scan env n with
       | none => .error fault.undefined_behaviour
       | some x => walk b ((n, x) :: env)) ∧
    compile (.definition n v b) instructs s d =
      (match compile v instructs s d with
       | .error f => .error f
       | .ok (c1, d1) =>
         match compile b c1 ((n, d1 - 1) :: s) d1 with
         | .error f => .error f
         | .ok (c2, d2) => .ok (c2 ++ [.drop (d2 - 2)], d2 - 1)) ∧
    compile (.definition n (.word n) b) instructs s d =
      (match scan s n with
       | none => .error fault.undefined_behaviour
       | some position =>
         match compile b (instructs ++ [.copy position]) ((n, d + 1 - 1) :: s) (d + 1) with
         | .error f => .error f
         | .ok (c2, d2) => .ok (c2 ++ [.drop (d2 - 2)], d2 - 1)) := by
  refine ⟨?_, ?_, ?_, ?_⟩
  · simp only [walk]
  · simp only [walk]
    cases scan env n <;> rfl
  · simp only [compile, push_instruction]
  · simp only [compile, push_instruction]
    cases scan s n <;> rfl

/-- C7, as the code has it: for every name `n` and every environment `env`
with no frame named `n` (the empty one included), `walk(Reference(n), env)`
returns no integer, because the scan runs off the end of the list and
dereferences the null pointer: undefined behaviour, not a reported error.
For every symbol table `s` with no frame named `n`, every depth `d` and every
instruction sequence, `compile(Reference(n), s, d)` fails in the same way
before anything is pushed: it returns no sequence, so no `Copy` is emitted. -/
theorem C7_unbound_reference_is_undefined (n : String) (env : environment) (s : symbols)
    (instructs : instructions) (d : Int)
    (henv : ∀ p ∈ env, p.1 ≠ n) (hs : ∀ p ∈ s, p.1 ≠ n) :
    walk (.word n) env = .error fault.undefined_behaviour ∧
    reports_error (walk (.word n) env) = false ∧
    compile (.word n) instructs s d = .error fault.undefined_behaviour ∧
    reports_error (compile (.word n) instructs s d) = false ∧
    ∀ r, compile (.word n) instructs s d ≠ .ok r := by
  have hw : walk (.word n) env = .error fault.undefined_behaviour := by
    simp only [walk, scan_eq_none env n henv]
  have hc : compile (.word n) instructs s d = .error fault.undefined_behaviour := by
    simp only [compile, scan_eq_none s n hs]
  refine ⟨hw, ?_, hc, ?_, ?_⟩
  · rw [hw]; rfl
  · rw [hc]; rfl
  · intro r hr
    rw [hc] at hr
    cases hr

/-- Witness of C7: the reference `u` under an environment and a symbol table
that bind only `a`. -/
theorem C7_unbound_reference_is_undefined_witness :
    walk (.word "u") [("a", 1)] = .error fault.undefined_behaviour ∧
    reports_error (walk (.word "u") [("a", 1)]) = false ∧
    compile (.word "u") [.load_literal 1] [("a", 0)] 1 = .error fault.undefined_behaviour ∧
    reports_error (compile (.word "u") [.load_literal 1] [("a", 0)] 1) = false ∧
    ∀ r, compile (.word "u") [.load_literal 1] [("a", 0)] 1 ≠ .ok r :=
  C7_unbound_reference_is_undefined "u" [("a", 1)] [("a", 0)] [.load_literal 1] 1
    (by decide) (by decide)

/-- C7 as stated fails: on `Reference("u")` with the empty environment `walk`
ends in undefined behaviour, and `compile` with the empty symbol table does
too; neither outcome is an error reported by the program. -/
theorem C7_counterexample :
    ¬ (reports_error (walk (.word "u") []) = true) ∧
    ¬ (reports_error (compile (.word "u") [] [] 0) = true) ∧
    walk (.word "u") [] = .error fault.undefined_behaviour ∧
    compile (.word "u") [] [] 0 = .error fault.undefined_behaviour := by
  refine ⟨?_, ?_, rfl, rfl⟩
  · decide
  · decide

/-- C8: for every `Condition(test, yes, no)`, symbol table `s`, depth `d` and
sequence, if `test` compiles (returning depth `d1`, so that the depth after
the `Branch` is `d1 - 1`) and compiling the `no` arm and the `yes` arm at
that depth (into any sequences) return different depths, then `compile` of
the condition fails on `assert(stack_size_yes == stack_size_no)` and returns
no instruction sequence. -/
theorem C8_depth_balance (test yes no : expression) (instructs cn cy c1 c2 c3 : instructions)
    (s : symbols) (d d1 dn dy : Int)
    (ht : compile test instructs s d = .ok (c1, d1))
    (hn : compile no cn s (d1 - 1) = .ok (c2, dn))
    (hy : compile yes cy s (d1 - 1) = .ok (c3, dy))
    (hne : dy ≠ dn) :
    compile (.condition test yes no) instructs s d = .error fault.assertion_failed ∧
    reports_error (compile (.condition test yes no) instructs s d) = true ∧
    ∀ r, compile (.condition test yes no) instructs s d ≠ .ok r := by
  have hc : compile (.condition test yes no) instructs s d =
      .error fault.assertion_failed := by
    obtain ⟨ct, het, _⟩ := compile_ok test instructs c1 s d d1 ht
    obtain ⟨sn, hen⟩ := compile_depth_any_sequence no cn
      (List.replicate (instructs.length + ct.length + 1) instruction.add) c2 s (d1 - 1) dn hn
    obtain ⟨sy, hey⟩ := compile_depth_any_sequence yes cy
      (List.replicate (instructs.length + ct.length + 1 + sn.length + 1) instruction.add)
      c3 s (d1 - 1) dy hy
    rw [List.length_replicate] at hen hey
    rw [compile_eq_emit]
    simp only [emit, het, hen, hey, hne, if_false]
  refine ⟨hc, ?_, ?_⟩
  · rw [hc]; rfl
  · intro r hr
    rw [hc] at hr
    cases hr

/-- Witness of C8, the example of the claim:
`Condition(Literal(1), Literal(2), Condition(Literal(0), Literal(1), Literal(2)))`
from the empty sequence, the empty symbol table and depth 0. The `no` arm
returns depth 0 and the `yes` arm depth 1, so the assertion fails. -/
theorem C8_depth_balance_witness :
    compile (.literal 1) [] [] 0 = .ok ([.load_literal 1], 1) ∧
    compile (.condition (.literal 0) (.literal 1) (.literal 2)) [] [] (1 - 1) =
      .ok ([.load_literal 0, .branch 4, .load_literal 2, .jump 5, .load_literal 1], 0) ∧
    compile (.literal 2) [] [] (1 - 1) = .ok ([.load_literal 2], 1) ∧
    compile (.condition (.literal 1) (.literal 2)
        (.condition (.literal 0) (.literal 1) (.literal 2))) [] [] 0 =
      .error fault.assertion_failed ∧
    reports_error (compile (.condition (.literal 1) (.literal 2)
        (.condition (.literal 0) (.literal 1) (.literal 2))) [] [] 0) = true ∧
    ∀ r, compile (.condition (.literal 1) (.literal 2)
        (.condition (.literal 0) (.literal 1) (.literal 2))) [] [] 0 ≠ .ok r :=
  ⟨rfl, rfl, rfl,
    C8_depth_balance (.literal 1) (.literal 2)
      (.condition (.literal 0) (.literal 1) (.literal 2)) [] [] [] _ _ _ [] 0 1 0 1
      rfl rfl rfl (by decide)⟩

/-- C9: when `walk(test, env)` succeeds with value `t`,
`walk(Condition(test, yes, no), env)` is `walk(yes, env)` for `t` non-zero
and `walk(no, env)` for `t` zero, and it does not depend on the arm not
taken: replacing that arm by any expression, one with an unbound reference
included, leaves the outcome the same. -/
theorem C9_one_arm_evaluated (test yes no other : expression) (env : environment) (t : Int)
    (ht : walk test env = .ok t) :
    walk (.condition test yes no) env = (if t ≠ 0 then walk yes env else walk no env) ∧
    (t ≠ 0 → walk (.condition test yes no) env = walk yes env ∧
      walk (.condition test yes other) env = walk (.condition test yes no) env) ∧
    (t = 0 → walk (.condition test yes no) env = walk no env ∧
      walk (.condition test other no) env = walk (.condition test yes no) env) := by
  have h : ∀ y n, walk (.condition test y n) env =
      (if t ≠ 0 then walk y env else walk n env) := by
    intro y n
    simp only [walk, ht]
  refine ⟨h yes no, ?_, ?_⟩
  · intro h0
    rw [h yes no, h yes other]
    simp only [h0, ne_eq, not_false_eq_true, if_true, and_self]
  · intro h0
    rw [h yes no, h other no]
    simp only [h0, ne_eq, not_true_eq_false, if_false, and_self]

/-- Witness of C9, the example of the claim:
`walk(Condition(Literal(1), Literal(2), Reference("u")), empty environment) = 2`,
whatever replaces the untaken arm `Reference("u")`. -/
theorem C9_one_arm_evaluated_witness :
    walk (.condition (.literal 1) (.literal 2) (.word "u")) [] = .ok 2 ∧
    walk (.condition (.literal 1) (.literal 2) (.literal 3)) [] =
      walk (.condition (.literal 1) (.literal 2) (.word "u")) [] := by
  have h := C9_one_arm_evaluated (.literal 1) (.literal 2) (.word "u") (.literal 3) [] 1 rfl
  exact ⟨(h.2.1 (by decide)).1, (h.2.1 (by decide)).2⟩

/-- C10: let `Condition(test, yes, no)` compile from the empty sequence, the
empty symbol table and depth 0 to `code`. Then the test compiles to a
sequence `ct` and the `no` arm compiles after it to a sequence `c2`, so that
the `Branch` of the condition is at index `ct.length`
(`branch_instruction_position`) with target `c2.length + 1`, and its `Jump` at
index `c2.length` (`jump_instruction_position`) with target `code.length`.
In the run of `code` from the empty stack, for any budget, if the `Branch`
is executed with `v` on top of the stack (the value it pops), then for `v`
non-zero no index strictly between the `Branch` and the `Jump` (the `no` arm)
is ever executed, and for `v` zero no index from the target of the `Branch`
to the end of `code` (the `yes` arm) is ever executed. -/
theorem C10_single_branch_execution (test yes no : expression) (code : instructions)
    (depth : Int)
    (hc : compile (.condition test yes no) [] [] 0 = .ok (code, depth)) :
    ∃ ct d1 c2 dn,
      compile test [] [] 0 = .ok (ct, d1) ∧
      compile no (ct ++ [.branch 0]) [] (d1 - 1) = .ok (c2, dn) ∧
      code.get? ct.length = some (.branch ((c2.length + 1 : Nat) : Int)) ∧
      code.get? c2.length = some (.jump ((code.length : Nat) : Int)) ∧
      ∀ (fuel : Nat) (st : stack) (v : Int),
        (ct.length, st) ∈ trace code fuel 0 [] → st.getLast? = some v →
          (v ≠ 0 → ∀ p ∈ trace code fuel 0 [], ¬ (ct.length < p.1 ∧ p.1 < c2.length)) ∧
          (v = 0 → ∀ p ∈ trace code fuel 0 [],
            ¬ (c2.length + 1 ≤ p.1 ∧ p.1 < code.length)) := by
  obtain ⟨ct, d1, c2, dn, ht, hn⟩ := condition_parts test yes no [] code [] 0 depth hc
  refine ⟨ct, d1, c2, dn, ht, hn, ?_, ?_, ?_⟩
  · exact (arms_exclusive_compiled test yes no code ct c2 depth d1 dn hc ht hn).1
  · exact (arms_exclusive_compiled test yes no code ct c2 depth d1 dn hc ht hn).2.1
  · exact (arms_exclusive_compiled test yes no code ct c2 depth d1 dn hc ht hn).2.2

/-- Witness of C10: `Condition(Literal(1), Literal(2), Literal(3))` compiles
to `[LoadLiteral 1, Branch 4, LoadLiteral 3, Jump 5, LoadLiteral 2]`; in its
run the `Branch` at index 1 is executed with stack `[1]`, and index 2, the
`no` arm, is not executed. -/
theorem C10_single_branch_execution_witness :
    compile (.condition (.literal 1) (.literal 2) (.literal 3)) [] [] 0 =
      .ok ([.load_literal 1, .branch 4, .load_literal 3, .jump 5, .load_literal 2], 0) ∧
    ((1, [1]) : Nat × stack) ∈
      trace [.load_literal 1, .branch 4, .load_literal 3, .jump 5, .load_literal 2] 5 0 [] ∧
    ∀ p ∈ trace [.load_literal 1, .branch 4, .load_literal 3, .jump 5, .load_literal 2] 5 0 [],
      ¬ (1 < p.1 ∧ p.1 < 3) := by
  obtain ⟨ct, d1, c2, dn, ht, hn, _, _, h⟩ :=
    C10_single_branch_execution (.literal 1) (.literal 2) (.literal 3)
      [.load_literal 1, .branch 4, .load_literal 3, .jump 5, .load_literal 2] 0 rfl
  have e1 : compile (.literal 1) [] [] 0 = .ok ([.load_literal 1], 1) := rfl
  rw [e1] at ht
  simp only [Except.ok.injEq, Prod.mk.injEq] at ht
  obtain ⟨hct, hd1⟩ := ht
  subst hct
  subst hd1
  have e2 : compile (.literal 3) ([.load_literal 1] ++ [.branch 0]) [] (1 - 1) =
      .ok ([.load_literal 1, .branch 0, .load_literal 3], 1) := rfl
  rw [e2] at hn
  simp only [Except.ok.injEq, Prod.mk.injEq] at hn
  obtain ⟨hc2, _⟩ := hn
  subst hc2
  have hmem : ((1, [1]) : Nat × stack) ∈
      trace [.load_literal 1, .branch 4, .load_literal 3, .jump 5, .load_literal 2] 5 0 [] := by
    decide
  exact ⟨rfl, hmem, (h 5 [1] 1 hmem rfl).1 (by decide)⟩

/-- C11: for every operand stack `st` and every slot with
`0 <= slot < height(st)`, `Drop(slot)` in `interpret` (the shifting loop of
the source followed by `size--`) leaves `st` with the element at index `slot`
removed: the height is one less, the elements below `slot` are unchanged and
each element above `slot` has moved down by one. -/
theorem C11_drop_compacts (st : stack) (slot : Int) (i : Nat)
    (h0 : 0 ≤ slot) (hlt : slot < st.length) :
    step (.drop slot) i st = .ok (i + 1, drop_cells st slot.toNat) ∧
    drop_cells st slot.toNat = st.eraseIdx slot.toNat ∧
    (drop_cells st slot.toNat).length + 1 = st.length ∧
    (∀ k, k < slot.toNat → (drop_cells st slot.toNat).get? k = st.get? k) ∧
    (∀ k, slot.toNat ≤ k → (drop_cells st slot.toNat).get? k = st.get? (k + 1)) := by
  have hl : slot.toNat < st.length := by omega
  have hs : st ≠ [] := by
    intro h
    rw [h] at hl
    exact Nat.not_lt_zero _ hl
  have he := drop_cells_eq_eraseIdx st slot.toNat hl
  refine ⟨?_, he, ?_, ?_, ?_⟩
  · simp only [step, stack_drop_eq_cells st slot hs h0]
  · rw [he, List.length_eraseIdx]
    simp only [hl, if_true]
    omega
  · intro k hk
    rw [he, List.get?_eq_getElem?, List.get?_eq_getElem?,
      List.getElem?_eraseIdx_of_lt _ _ _ hk]
  · intro k hk
    rw [he, List.get?_eq_getElem?, List.get?_eq_getElem?,
      List.getElem?_eraseIdx_of_ge _ _ _ hk]

/-- Witness of C11: `Drop(1)` on the stack `[10, 20, 30]` gives `[10, 30]`. -/
theorem C11_drop_compacts_witness :
    step (.drop 1) 0 [10, 20, 30] = .ok (1, [10, 30]) ∧
    drop_cells [10, 20, 30] 1 = [10, 30] := by
  have h := C11_drop_compacts [10, 20, 30] 1 0 (by decide) (by decide)
  have e : drop_cells [10, 20, 30] (Int.toNat 1) = [10, 30] := by decide
  rw [e] at h
  exact ⟨h.1, e⟩

/-- C13, evaluated at the failing input: `Condition(Literal(0), Literal(2),
Literal(3))` compiled from the empty sequence, the empty symbol table and
depth 0. The test takes the depth from 0 to 1, both arms are compiled at
depth 0 and return depth 1, and `compile` returns depth 0 for the whole
condition: the depth after the `Branch`, not the depth of the `yes` arm. -/
theorem C13_condition_returns_depth_after_branch :
    compile (.literal 0) [] [] 0 = .ok ([.load_literal 0], 1) ∧
    compile (.literal 3) [.load_literal 0, .branch 0] [] (1 - 1) =
      .ok ([.load_literal 0, .branch 0, .load_literal 3], 1) ∧
    compile (.literal 2) [.load_literal 0, .branch 4, .load_literal 3, .jump 0] [] (1 - 1) =
      .ok ([.load_literal 0, .branch 4, .load_literal 3, .jump 0, .load_literal 2], 1) ∧
    compile (.condition (.literal 0) (.literal 2) (.literal 3)) [] [] 0 =
      .ok ([.load_literal 0, .branch 4, .load_literal 3, .jump 5, .load_literal 2], 0) :=
  ⟨rfl, rfl, rfl, rfl⟩

/-- C14, evaluated at the failing input:
`Definition("y", Condition(Literal(1), Literal(2), Literal(3)), Reference("y"))`
compiled at entry depth 1 after `[LoadLiteral 100]` with the empty symbol
table. The value is a condition, which returns depth 1 instead of 2, so the
body sees `y` at slot 0 (it emits `Copy 0`) and the last instruction is
`Drop 0`, where the entry depth is 1. At run time the value of `y` is in
cell 1: the code leaves `[2, 100]`, with 100 on top instead of 2. -/
theorem C14_definition_slot_after_condition :
    compile (.definition "y" (.condition (.literal 1) (.literal 2) (.literal 3)) (.word "y"))
        [.load_literal 100] [] 1 =
      .ok ([.load_literal 100, .load_literal 1, .branch 5, .load_literal 3, .jump 6,
            .load_literal 2, .copy 0, .drop 0], 1) ∧
    run [.load_literal 100, .load_literal 1, .branch 5, .load_literal 3, .jump 6,
         .load_literal 2, .copy 0, .drop 0] 8 0 [] = .ok [2, 100] :=
  ⟨rfl, rfl⟩

/-- C15, evaluated at the failing input: `Condition(Literal(0), Literal(2),
Literal(3))`, the first program of `main`. `compile` from the empty sequence,
the empty symbol table and depth 0 returns depth 0, while the run of the
compiled code from the empty stack passes the last instruction with one
value on the stack. -/
theorem C15_depth_differs_from_height :
    compile (.condition (.literal 0) (.literal 2) (.literal 3)) [] [] 0 =
      .ok ([.load_literal 0, .branch 4, .load_literal 3, .jump 5, .load_literal 2], 0) ∧
    (∀ fuel, run [.load_literal 0, .branch 4, .load_literal 3, .jump 5, .load_literal 2]
      (4 + fuel) 0 [] = .ok [3]) ∧
    ([3] : stack).length = 1 := by
  refine ⟨rfl, fun fuel => ?_, rfl⟩
  refine run_mono _ 4 0 [] [3] ?_ fuel
  rfl

/-- C16: whenever `compile` of `Condition(test, yes, no)` succeeds on an
initial sequence `instructs`, the result is `instructs`, the code `ct` of the
test, one `Branch` at index `B`, the code `cn` of the `no` arm, one `Jump` at
index `J`, and the code `cy` of the `yes` arm, where each code is what
`compile` appends for that part at that place. The target of the `Branch` is
`J + 1`, the index of the first instruction of the `yes` arm, and the target
of the `Jump` is the instruction count when `compile` returns. -/
theorem C16_backpatched_layout (test yes no : expression) (instructs code : instructions)
    (s : symbols) (d depth : Int)
    (hc : compile (.condition test yes no) instructs s d = .ok (code, depth)) :
    ∃ (ct cn cy : instructions) (d1 dn dy : Int) (B J : Nat),
      B = instructs.length + ct.length ∧ J = B + 1 + cn.length ∧
      compile test instructs s d = .ok (instructs ++ ct, d1) ∧
      compile no (instructs ++ ct ++ [.branch 0]) s (d1 - 1) =
        .ok (instructs ++ ct ++ [.branch 0] ++ cn, dn) ∧
      compile yes (instructs ++ ct ++ [.branch ((J + 1 : Nat) : Int)] ++ cn ++ [.jump 0]) s
          (d1 - 1) =
        .ok (instructs ++ ct ++ [.branch ((J + 1 : Nat) : Int)] ++ cn ++ [.jump 0] ++ cy, dy) ∧
      code = instructs ++ ct ++ [.branch ((J + 1 : Nat) : Int)] ++ cn ++
        [.jump ((code.length : Nat) : Int)] ++ cy ∧
      code.length = J + 1 + cy.length ∧
      code.get? B = some (.branch ((J + 1 : Nat) : Int)) ∧
      code.get? J = some (.jump ((code.length : Nat) : Int)) := by
  obtain ⟨c1, d1, c2, dn, ht, hn⟩ := condition_parts test yes no instructs code s d depth hc
  obtain ⟨ct, cn, cy, h1, h2, h3, het, hen, hey, _⟩ :=
    condition_layout test yes no instructs c1 c2 code s d d1 dn depth hc ht hn
  obtain ⟨T, hT⟩ : ∃ T : Nat, T = instructs.length + ct.length + 1 + cn.length + 1 :=
    ⟨_, rfl⟩
  obtain ⟨L, hL⟩ : ∃ L : Nat,
      L = instructs.length + ct.length + 1 + cn.length + 1 + cy.length := ⟨_, rfl⟩
  rw [← hL, ← hT] at h3
  have lL : code.length = L := by
    rw [h3]; simp only [List.length_append, List.length_cons]; omega
  have eT : instructs.length + ct.length + 1 + cn.length + 1 = T := hT.symm
  refine ⟨ct, cn, cy, d1, dn, dn, instructs.length + ct.length,
    instructs.length + ct.length + 1 + cn.length, rfl, rfl, ?_, ?_, ?_, ?_, ?_, ?_, ?_⟩
  · rw [ht, h1]
  · rw [← h1, hn, h2, h1]
    simp only [List.append_assoc, List.singleton_append]
  · rw [eT]
    have l : (instructs ++ ct ++ [instruction.branch (T : Int)] ++ cn ++
        [instruction.jump 0]).length = T := by
      simp only [List.length_append, List.length_cons, List.length_nil]; omega
    exact compile_of_emit yes _ cy s (d1 - 1) dn (by rw [l, hT]; exact hey)
  · rw [eT, lL, h3]
    simp only [List.append_assoc, List.singleton_append, List.cons_append, List.nil_append]
  · rw [lL]; omega
  · rw [eT, h3]
    have e : instructs ++ (ct ++ instruction.branch (T : Int) ::
        (cn ++ instruction.jump (L : Int) :: cy)) =
        (instructs ++ ct) ++ instruction.branch (T : Int) ::
          (cn ++ instruction.jump (L : Int) :: cy) := by
      simp only [List.append_assoc]
    rw [e, ← List.length_append]
    exact get?_mid _ _ _
  · rw [lL, h3]
    have e : instructs ++ (ct ++ instruction.branch (T : Int) ::
        (cn ++ instruction.jump (L : Int) :: cy)) =
        (instructs ++ ct ++ instruction.branch (T : Int) :: cn) ++
          instruction.jump (L : Int) :: cy := by
      simp only [List.append_assoc, List.cons_append]
    have l : (instructs ++ ct ++ instruction.branch (T : Int) :: cn).length =
        instructs.length + ct.length + 1 + cn.length := by
      simp only [List.length_append, List.length_cons]; omega
    rw [e, ← l]
    exact get?_mid _ _ _

/-- Witness of C16, the example of the claim: with an empty initial sequence
`Condition(Literal(0), Literal(2), Literal(3))` compiles to
`[LoadLiteral(0), Branch(4), LoadLiteral(3), Jump(5), LoadLiteral(2)]`. -/
theorem C16_backpatched_layout_witness :
    compile (.condition (.literal 0) (.literal 2) (.literal 3)) [] [] 0 =
      .ok ([.load_literal 0, .branch 4, .load_literal 3, .jump 5, .load_literal 2], 0) ∧
    ∃ (ct cn cy : instructions) (B J : Nat),
      B = ct.length ∧ J = B + 1 + cn.length ∧
      ([.load_literal 0, .branch 4, .load_literal 3, .jump 5, .load_literal 2] :
        instructions) = ct ++ [.branch ((J + 1 : Nat) : Int)] ++ cn ++
          [.jump ((5 : Nat) : Int)] ++ cy := by
  refine ⟨rfl, ?_⟩
  obtain ⟨ct, cn, cy, d1, dn, dy, B, J, hB, hJ, _, _, _, hcode, _, _, _⟩ :=
    C16_backpatched_layout (.literal 0) (.literal 2) (.literal 3) []
      [.load_literal 0, .branch 4, .load_literal 3, .jump 5, .load_literal 2] [] 0 0 rfl
  refine ⟨ct, cn, cy, B, J, ?_, hJ, ?_⟩
  · rw [hB]; simp
  · rw [List.nil_append] at hcode
    exact hcode

/-- C17: whenever `compile` succeeds on an initial sequence `pre`, the result
is `pre` followed by new instructions, so every instruction present before
the call is afterwards at the same index, unchanged. When the expression is
a condition, the sequence as it stands before the two patches (`c2` followed
by the placeholder `Jump`) differs from the result only at the index of the
`Branch` and the index of the `Jump`, both emitted by this call (at or after
`pre.length`), and there only in the target. -/
theorem C17_compile_only_appends (e : expression) (pre code : instructions) (s : symbols)
    (d d' : Int) (hc : compile e pre s d = .ok (code, d')) :
    (∃ seg, code = pre ++ seg) ∧
    (∀ i, i < pre.length → code.get? i = pre.get? i) ∧
    (∀ (test yes no : expression) (c1 c2 : instructions) (d1 dn : Int),
      e = .condition test yes no →
      compile test pre s d = .ok (c1, d1) →
      compile no (c1 ++ [.branch 0]) s (d1 - 1) = .ok (c2, dn) →
        pre.length ≤ c1.length ∧ c1.length < c2.length ∧
        (c2 ++ [instruction.jump 0]).get? c1.length = some (.branch 0) ∧
        (c2 ++ [instruction.jump 0]).get? c2.length = some (.jump 0) ∧
        (∃ t, code.get? c1.length = some (.branch t)) ∧
        (∃ t, code.get? c2.length = some (.jump t)) ∧
        ∀ i, i < c2.length + 1 → i ≠ c1.length → i ≠ c2.length →
          code.get? i = (c2 ++ [instruction.jump 0]).get? i) := by
  obtain ⟨seg, _, hseg⟩ := compile_ok e pre code s d d' hc
  refine ⟨⟨seg, hseg⟩, ?_, ?_⟩
  · intro i hi
    rw [hseg]
    exact get?_append_left pre seg i hi
  · intro test yes no c1 c2 d1 dn he ht hn
    subst he
    obtain ⟨ct, cn, cy, h1, h2, h3, _, _, _, _⟩ :=
      condition_layout test yes no pre c1 c2 code s d d1 dn d' hc ht hn
    obtain ⟨T, hT⟩ : ∃ T : Int,
        T = ((pre.length + ct.length + 1 + cn.length + 1 : Nat) : Int) := ⟨_, rfl⟩
    obtain ⟨L, hL⟩ : ∃ L : Int,
        L = ((pre.length + ct.length + 1 + cn.length + 1 + cy.length : Nat) : Int) :=
      ⟨_, rfl⟩
    rw [← hL, ← hT] at h3
    have e2 : c2 = c1 ++ (instruction.branch 0 :: cn) := by
      rw [h2, h1, List.append_assoc]
    have e3 : code = c1 ++ (instruction.branch T :: (cn ++ (instruction.jump L :: cy))) := by
      rw [h3, h1, List.append_assoc]
    have e4 : c2 ++ [instruction.jump 0] =
        c1 ++ (instruction.branch 0 :: (cn ++ [instruction.jump 0])) := by
      rw [e2]; simp only [List.append_assoc, List.cons_append]
    have l1 : c1.length = pre.length + ct.length := by rw [h1, List.length_append]
    have l2 : c2.length = c1.length + 1 + cn.length := by
      rw [e2]; simp only [List.length_append, List.length_cons]; omega
    have e5 : code = (c1 ++ (instruction.branch T :: cn)) ++ (instruction.jump L :: cy) := by
      rw [e3]; simp only [List.append_assoc, List.cons_append]
    have l5 : (c1 ++ (instruction.branch T :: cn)).length = c2.length := by
      simp only [List.length_append, List.length_cons]; omega
    refine ⟨by omega, by omega, ?_, get?_mid _ _ _, ⟨T, ?_⟩, ⟨L, ?_⟩, ?_⟩
    · rw [e4]; exact get?_mid _ _ _
    · rw [e3]; exact get?_mid _ _ _
    · rw [e5, ← l5]; exact get?_mid _ _ _
    · intro i hi hi1 hi2
      rw [e3, e4]
      by_cases hlt : i < c1.length
      · rw [get?_append_left _ _ i hlt, get?_append_left _ _ i hlt]
      · have hge : c1.length ≤ i := Nat.le_of_not_lt hlt
        rw [get?_append_right _ _ i hge, get?_append_right _ _ i hge]
        obtain ⟨k, hk⟩ : ∃ k, i - c1.length = k + 1 := ⟨i - c1.length - 1, by omega⟩
        rw [hk, List.get?_cons_succ, List.get?_cons_succ,
          get?_append_left _ _ k (by omega), get?_append_left _ _ k (by omega)]

/-- Witness of C17: `Condition(Literal(0), Literal(2), Literal(3))` compiled
after `[LoadLiteral 9]`: the first instruction stays, and the new ones
follow it. -/
theorem C17_compile_only_appends_witness :
    compile (.condition (.literal 0) (.literal 2) (.literal 3)) [.load_literal 9] [] 1 =
      .ok ([.load_literal 9, .load_literal 0, .branch 5, .load_literal 3, .jump 6,
            .load_literal 2], 1) ∧
    ∃ seg, ([.load_literal 9, .load_literal 0, .branch 5, .load_literal 3, .jump 6,
            .load_literal 2] : instructions) = [.load_literal 9] ++ seg :=
  ⟨rfl, (C17_compile_only_appends (.condition (.literal 0) (.literal 2) (.literal 3))
    [.load_literal 9] _ [] 1 1 rfl).1⟩

/-- C20: whenever `compile` succeeds on an initial sequence `pre`, every
`Branch` or `Jump` emitted by the call, at an index `i`, has a target `t` with
`i < t <= ` the instruction count at return. Hence on a sequence compiled from
the empty sequence every successful turn of the loop of `interpret` moves the
instruction index strictly forward, and the loop ends, from any stack, within
as many turns as there are instructions; on the arbitrary sequence
`[Jump(0)]` the loop does not end within any budget. -/
theorem C20_forward_jumps_and_termination (e : expression) (pre code : instructions)
    (s : symbols) (d d' : Int) (hc : compile e pre s d = .ok (code, d')) :
    (∀ i ins t, pre.length ≤ i → code.get? i = some ins → target_of ins = some t →
      (i : Int) < t ∧ t ≤ (code.length : Int)) ∧
    (pre = [] →
      (∀ i ins st i' st', code.get? i = some ins → step ins i st = .ok (i', st') → i < i') ∧
      (∀ st fuel, run code (code.length + fuel) 0 st ≠ .error fault.out_of_fuel) ∧
      (∀ st fuel, interpret code st (code.length + fuel) ≠ .error fault.out_of_fuel)) ∧
    (∀ fuel, run [instruction.jump 0] fuel 0 [] = .error fault.out_of_fuel) ∧
    (∀ fuel, interpret [instruction.jump 0] [] fuel = .error fault.out_of_fuel) := by
  refine ⟨?_, ?_, fun fuel => run_jump_zero fuel [], ?_⟩
  · obtain ⟨seg, hseg, hcode⟩ := compile_ok e pre code s d d' hc
    have hf := emit_forward e s d pre.length seg d' hseg
    intro i ins t hi hg ht
    rw [hcode, get?_append_right pre seg i hi] at hg
    have := hf (i - pre.length) ins t hg ht
    rw [hcode, List.length_append]
    have e1 : pre.length + (i - pre.length) = i := by omega
    rw [e1] at this
    exact ⟨this.1, by omega⟩
  · intro hpre
    subst hpre
    have hfw := compiled_step_forward e code s d d' hc
    have hrun : ∀ st fuel, run code (code.length + fuel) 0 st ≠ .error fault.out_of_fuel :=
      fun st fuel => run_terminates_of_forward code hfw _ 0 st (by omega)
    refine ⟨hfw, hrun, ?_⟩
    intro st fuel h
    unfold interpret at h
    cases hr : run code (code.length + fuel) 0 st with
    | error f =>
      rw [hr] at h
      simp only [Except.error.injEq] at h
      rw [h] at hr
      exact hrun st fuel hr
    | ok s' =>
      rw [hr] at h
      simp only [] at h
      split at h <;> cases h
  · intro fuel
    unfold interpret
    rw [run_jump_zero fuel []]

/-- Witness of C20: `Condition(Literal(0), Literal(2), Literal(3))` compiled
from the empty sequence; its `Branch` at index 1 has target 4 and its `Jump`
at index 3 has target 5, the instruction count, and the loop ends. -/
theorem C20_forward_jumps_and_termination_witness :
    compile (.condition (.literal 0) (.literal 2) (.literal 3)) [] [] 0 =
      .ok ([.load_literal 0, .branch 4, .load_literal 3, .jump 5, .load_literal 2], 0) ∧
    (∀ st fuel, run [.load_literal 0, .branch 4, .load_literal 3, .jump 5, .load_literal 2]
      (5 + fuel) 0 st ≠ .error fault.out_of_fuel) :=
  ⟨rfl, ((C20_forward_jumps_and_termination
    (.condition (.literal 0) (.literal 2) (.literal 3)) []
    [.load_literal 0, .branch 4, .load_literal 3, .jump 5, .load_literal 2] [] 0 0 rfl).2.1
      rfl).2.1⟩

/-- C18: let `e` contain no condition, let every reference in `e` be bound in
`env`, and let the stack `st`, of height `d`, and the symbol table `s` agree
with `env` (for each name bound in `env`, its innermost frame in `s` holds a
slot `p < d` and `st[p]` is the value of its innermost frame in `env`). Then
`walk(e, env)` returns some `r`, `compile(e, s, d)` on any sequence `pre`
appends a segment `seg` and returns `d + 1`, and executing exactly `seg`
(inside any sequence `pre ++ seg ++ post`, from the index after `pre`, in
`seg.length` turns of the loop, or as a sequence of its own) from stack `st`
ends at the index after `seg` with the stack `st` followed by `r`. -/
theorem C18_simulation_condition_free (e : expression) (env : environment) (s : symbols)
    (d : Int) (st : stack) (pre post : instructions)
    (hcf : condition_free e = true) (hb : bound_in e (env.map Prod.fst) = true)
    (hlen : (st.length : Int) = d) (hag : agrees env s st) :
    ∃ seg r, walk e env = .ok r ∧ compile e pre s d = .ok (pre ++ seg, d + 1) ∧
      (∀ fuel, run (pre ++ (seg ++ post)) (seg.length + fuel) pre.length st =
        run (pre ++ (seg ++ post)) fuel (pre.length + seg.length) (st ++ [r])) ∧
      run seg seg.length 0 st = .ok (st ++ [r]) := by
  obtain ⟨seg, r, hw, he, hr⟩ := simulate_condition_free e env s d st hcf hb hlen hag
  refine ⟨seg, r, hw, compile_of_emit e pre seg s d (d + 1) (he pre.length),
    hr _ pre post rfl, ?_⟩
  have h := hr seg [] [] (by rw [List.append_nil, List.nil_append]) 0
  rw [Nat.add_zero, List.length_nil, Nat.zero_add] at h
  rw [h]
  exact run_none seg 0 seg.length _ (by rw [List.get?_eq_getElem?]; simp)

/-- Witness of C18: `Addition(Literal(4), Reference("five"))` with `five`
bound to 5 in the environment and to slot 0 in the symbol table, at depth 1
on the stack `[5]`, after the sequence `[LoadLiteral 5]`. -/
theorem C18_simulation_condition_free_witness :
    condition_free (.addition (.literal 4) (.word "five")) = true ∧
    bound_in (.addition (.literal 4) (.word "five")) ["five"] = true ∧
    agrees [("five", 5)] [("five", 0)] [5] ∧
    walk (.addition (.literal 4) (.word "five")) [("five", 5)] = .ok 9 ∧
    run [.load_literal 4, .copy 0, .add] 3 0 [5] = .ok [5, 9] ∧
    ∃ seg r, walk (.addition (.literal 4) (.word "five")) [("five", 5)] = .ok r ∧
      compile (.addition (.literal 4) (.word "five")) [.load_literal 5] [("five", 0)] 1 =
        .ok ([.load_literal 5] ++ seg, 1 + 1) ∧
      run seg seg.length 0 [5] = .ok ([5] ++ [r]) := by
  have hag : agrees [("five", 5)] [("five", 0)] [5] := by
    intro n v h
    by_cases hn : "five" = n
    · simp only [scan, hn, if_true, Option.some.injEq] at h
      subst h
      exact ⟨0, by simp only [scan, hn, if_true], by decide, by decide, rfl⟩
    · simp only [scan, hn, if_false] at h
      cases h
  obtain ⟨seg, r, hw, hc, _, hr⟩ :=
    C18_simulation_condition_free (.addition (.literal 4) (.word "five")) [("five", 5)]
      [("five", 0)] 1 [5] [.load_literal 5] [] rfl rfl rfl hag
  exact ⟨rfl, rfl, hag, rfl, rfl, seg, r, hw, hc, hr⟩

/-- C19: for every `Condition(test, yes, no)` whose three parts contain no
condition and no unbound reference, `compile` from the empty sequence, the
empty symbol table and depth 0 succeeds (the assertion on the depths of the
arms holds), and `interpret` on the compiled code from the empty stack, for
any budget of at least the number of instructions, returns the integer that
`walk` returns in the empty environment. -/
theorem C19_root_condition_agrees (test yes no : expression)
    (hct : condition_free test = true) (hcy : condition_free yes = true)
    (hcn : condition_free no = true)
    (hbt : bound_in test [] = true) (hby : bound_in yes [] = true)
    (hbn : bound_in no [] = true) :
    ∃ code depth r, compile (.condition test yes no) [] [] 0 = .ok (code, depth) ∧
      walk (.condition test yes no) [] = .ok r ∧
      (∀ fuel, interpret code [] (code.length + fuel) = .ok r) ∧
      (∀ fuel, compile_and_interpret (.condition test yes no) (code.length + fuel) = .ok r) := by
  obtain ⟨code, r, hc, hw, hr⟩ := root_condition_run test yes no hct hcy hcn hbt hby hbn
  have hi : ∀ fuel, interpret code [] (code.length + fuel) = .ok r := by
    intro fuel
    unfold interpret
    rw [hr fuel]
    rfl
  refine ⟨code, 0, r, hc, hw, hi, ?_⟩
  intro fuel
  unfold compile_and_interpret
  rw [hc]
  exact hi fuel

/-- Witness of C19: a condition whose test is a definition and whose arms are
a sum and a literal; both pipelines return 7. -/
theorem C19_root_condition_agrees_witness :
    walk (.condition (.definition "x" (.literal 1) (.word "x"))
      (.addition (.literal 3) (.literal 4)) (.literal 5)) [] = .ok 7 ∧
    compile_and_interpret (.condition (.definition "x" (.literal 1) (.word "x"))
      (.addition (.literal 3) (.literal 4)) (.literal 5)) 9 = .ok 7 ∧
    ∃ code depth r, compile (.condition (.definition "x" (.literal 1) (.word "x"))
        (.addition (.literal 3) (.literal 4)) (.literal 5)) [] [] 0 = .ok (code, depth) ∧
      walk (.condition (.definition "x" (.literal 1) (.word "x"))
        (.addition (.literal 3) (.literal 4)) (.literal 5)) [] = .ok r ∧
      (∀ fuel, interpret code [] (code.length + fuel) = .ok r) ∧
      (∀ fuel, compile_and_interpret (.condition (.definition "x" (.literal 1) (.word "x"))
        (.addition (.literal 3) (.literal 4)) (.literal 5)) (code.length + fuel) = .ok r) :=
  ⟨rfl, rfl, C19_root_condition_agrees (.definition "x" (.literal 1) (.word "x"))
    (.addition (.literal 3) (.literal 4)) (.literal 5) rfl rfl rfl rfl rfl rfl⟩

/-- C12: let `e` compile from the empty sequence, the empty symbol table and
depth 0 (which includes that `e` has no unbound reference). In the run of
the compiled code from the empty stack, for every budget, no executed
instruction fails the assertion of `stack_pop` (reached from `Add` and
`Branch`), a loop that ends leaves exactly one value on the stack, so that the
final assertion `s->size != 0` holds, and neither the loop nor `interpret`
ends in a failed assertion. -/
theorem C12_no_stack_underflow (e : expression) (code : instructions) (depth : Int)
    (hc : compile e [] [] 0 = .ok (code, depth)) :
    (∀ fuel i st ins, (i, st) ∈ trace code fuel 0 [] → code.get? i = some ins →
      step ins i st ≠ .error fault.assertion_failed) ∧
    (∀ fuel st, run code fuel 0 [] = .ok st → st.length = 1) ∧
    (∀ fuel, run code fuel 0 [] ≠ .error fault.assertion_failed) ∧
    (∀ fuel, interpret code [] fuel ≠ .error fault.assertion_failed) := by
  obtain ⟨k, hk⟩ := compiled_run_outcome e code depth hc
  have hrun : ∀ fuel, run code fuel 0 [] ≠ .error fault.assertion_failed := by
    intro fuel h
    have h' := run_mono_fault code fuel 0 [] _ h (by intro h0; cases h0) k
    rw [Nat.add_comm] at h'
    rcases hk with ⟨v, hv⟩ | hub
    · rw [hv fuel] at h'; cases h'
    · rw [hub fuel] at h'; cases h'
  have hlen : ∀ fuel st, run code fuel 0 [] = .ok st → st.length = 1 := by
    intro fuel st h
    have h' := run_mono code fuel 0 [] st h k
    rw [Nat.add_comm] at h'
    rcases hk with ⟨v, hv⟩ | hub
    · rw [hv fuel] at h'
      simp only [Except.ok.injEq] at h'
      rw [← h']
      rfl
    · rw [hub fuel] at h'; cases h'
  refine ⟨?_, hlen, hrun, ?_⟩
  · intro fuel i st ins hmem hg hs
    exact hrun fuel (run_of_trace_fault code fuel 0 [] i st ins _ hmem hg hs)
  · intro fuel h
    unfold interpret at h
    cases hr : run code fuel 0 [] with
    | error f =>
      rw [hr] at h
      simp only [Except.error.injEq] at h
      rw [h] at hr
      exact hrun fuel hr
    | ok st =>
      rw [hr] at h
      have := hlen fuel st hr
      cases st with
      | nil => simp at this
      | cons v rest =>
        simp only [] at h
        split at h
        · rename_i hl
          simp at hl
        · cases h

/-- Witness of C12: `Definition("five", Literal(5), Addition(Literal(4),
Reference("five")))`, the second program of `main`. -/
theorem C12_no_stack_underflow_witness :
    compile (.definition "five" (.literal 5) (.addition (.literal 4) (.word "five"))) [] [] 0 =
      .ok ([.load_literal 5, .load_literal 4, .copy 0, .add, .drop 0], 1) ∧
    (∀ fuel, interpret [.load_literal 5, .load_literal 4, .copy 0, .add, .drop 0] [] fuel ≠
      .error fault.assertion_failed) :=
  ⟨rfl, (C12_no_stack_underflow
    (.definition "five" (.literal 5) (.addition (.literal 4) (.word "five")))
    [.load_literal 5, .load_literal 4, .copy 0, .add, .drop 0] 1 rfl).2.2.2⟩

end Compiler
